import Mathlib

/-!
Shallow embedding of the liquid-staking accounting contract
(src/contract.rs, src/state.rs, src/msg.rs, src/error.rs).

Storage maps (cw_storage_plus `Map<&Addr, V>` / `Item<V>`) are embedded as
association lists `List (String × V)` with the first matching key
authoritative (`getA`), and `setA` replacing the first occurrence of a key
or appending a fresh entry — mirroring a key-value store's load/save.
`Uint128` amounts become `Nat` (the claims under study do not hinge on
128-bit wraparound; `checked_sub` is embedded explicitly as `checkedSub`).
`Decimal` values are embedded by their integer numerator scaled by
`10 ^ 18` (`DECIMAL_FRACTIONAL`), exactly as `cosmwasm_std::Decimal`
stores them; `Decimal::from_ratio a b` is the truncating
`a * DECIMAL_FRACTIONAL / b`.
Fallible handlers return `Except ContractError State`; an `error` result
models the call aborting with no state written (CosmWasm rolls back the
whole call on error).
-/

/-- Association-list lookup: value at the first occurrence of the key. -/
def getA {α : Type} : List (String × α) → String → Option α
  | [], _ => none
  | (k', v) :: rest, k => if k' = k then some v else getA rest k

/-- Association-list store: replace the first occurrence of the key, or
append a fresh entry — the embedding of a kv-store `save`. -/
def setA {α : Type} : List (String × α) → String → α → List (String × α)
  | [], k, v => [(k, v)]
  | (k', v') :: rest, k, v =>
    if k' = k then (k, v) :: rest else (k', v') :: setA rest k v

/-- Sum of all stored values of a `Map<&Addr, Uint128>`. -/
def sumVals : List (String × Nat) → Nat
  | [] => 0
  | p :: rest => p.2 + sumVals rest

/-- Embedding of `Uint128::checked_sub`: `none` models the `Overflow` error. -/
def checkedSub (a b : Nat) : Option Nat :=
  if b ≤ a then some (a - b) else none

/-- Scale factor of `cosmwasm_std::Decimal` (18 fractional digits). -/
def DECIMAL_FRACTIONAL : Nat := 1000000000000000000

/-- Embedding of `Decimal::from_ratio`: numerator of the truncating
fixed-point quotient. -/
def decimalFromRatio (a b : Nat) : Nat := a * DECIMAL_FRACTIONAL / b

/-- src/state.rs `Config`. -/
structure Config where
  owner : String
  liquid_staking_interval : Nat
  arch_liquid_stake_interval : Nat
  redemption_rate_query_interval : Nat
  rewards_withdrawal_interval : Nat
  redemption_interval_threshold : Nat
  deriving DecidableEq

/-- src/state.rs `ContractMetadata`. -/
structure ContractMetadata where
  rewards_address : String
  liquidity_provider_address : String
  minimum_reward_amount : Nat
  maximum_reward_amount : Nat
  redemption_address : String
  deriving DecidableEq

/-- src/state.rs `DepositRecord`. -/
structure DepositRecord where
  id : Nat
  contract_address : String
  amount : Nat
  status : String
  timestamp : Nat
  block_height : Nat
  deriving DecidableEq

/-- The full persisted contract state: one field per storage item/map of
src/state.rs plus `COMPLETED_STAKES` declared in src/contract.rs. -/
structure State where
  config : Config
  lastProcessingTimes : List (String × Nat)
  depositRecords : List (String × List DepositRecord)
  totalLiquidStake : Nat
  contractStakes : List (String × Nat)
  stakeRatios : List (String × Nat)
  redeemTokens : List (String × Nat)
  redeemTokenRatios : List (String × Nat)
  contractMetadata : List (String × ContractMetadata)
  contractRewards : List (String × Nat)
  nextDepositRecordId : Nat
  redemptionRecords : List (String × Nat)
  completedStakes : List (String × Nat)
  deriving DecidableEq

/-- src/contract.rs `ContractError` (src/error.rs); `stdOverflow` and
`stdNotFound` embed the `Std`-wrapped storage errors actually produced. -/
inductive ContractError where
  | stdOverflow
  | stdNotFound
  | unauthorized
  | invalidRewardAmountRange
  | contractNotFound (contract_address : String)
  | noRedemptionRecords
  deriving DecidableEq

/-- Key constant from src/contract.rs. -/
def LAST_LIQUID_STAKING_DAPP_REWARDS_TIME_KEY : String :=
  "last_liquid_staking_dapp_rewards_time"

/-- Key constant from src/contract.rs. -/
def LAST_ARCH_LIQUID_STAKE_INTERVAL_TIME_KEY : String :=
  "last_arch_liquid_stake_interval_time"

/-- Key constant from src/contract.rs. -/
def LAST_REDEMPTION_RATE_QUERY_TIME_KEY : String :=
  "last_redemption_rate_query_time"

/-- Key constant from src/contract.rs. -/
def LAST_REWARDS_WITHDRAWAL_TIME_KEY : String :=
  "last_rewards_withdrawal_time"

/-- `get_all_contracts`: the keys of `CONTRACT_METADATA`. -/
def mkeys (s : State) : List String := s.contractMetadata.map (·.1)

/-- src/msg.rs `InstantiateMsg`. -/
structure InstantiateMsg where
  liquid_staking_interval : Nat
  arch_liquid_stake_interval : Nat
  redemption_rate_query_interval : Nat
  rewards_withdrawal_interval : Nat
  redemption_interval_threshold : Nat
  deriving DecidableEq

/-- The `instantiate` entry point: seeds the config, the four task clocks,
the zero total and the deposit-record id counter. -/
def instantiate (msg : InstantiateMsg) (sender : String) (now : Nat) : State :=
  { config :=
      { owner := sender
        liquid_staking_interval := msg.liquid_staking_interval
        arch_liquid_stake_interval := msg.arch_liquid_stake_interval
        redemption_rate_query_interval := msg.redemption_rate_query_interval
        rewards_withdrawal_interval := msg.rewards_withdrawal_interval
        redemption_interval_threshold := msg.redemption_interval_threshold }
    lastProcessingTimes :=
      [(LAST_LIQUID_STAKING_DAPP_REWARDS_TIME_KEY, now),
       (LAST_ARCH_LIQUID_STAKE_INTERVAL_TIME_KEY, now),
       (LAST_REDEMPTION_RATE_QUERY_TIME_KEY, now),
       (LAST_REWARDS_WITHDRAWAL_TIME_KEY, now)]
    depositRecords := []
    totalLiquidStake := 0
    contractStakes := []
    stakeRatios := []
    redeemTokens := []
    redeemTokenRatios := []
    contractMetadata := []
    contractRewards := []
    nextDepositRecordId := 1
    redemptionRecords := []
    completedStakes := [] }

/-- `add_reward_to_contract`: add to the reward balance (default zero). -/
def add_reward_to_contract (s : State) (rewards_addr : String) (amount : Nat) :
    State :=
  { s with
      contractRewards :=
        setA s.contractRewards rewards_addr
          ((getA s.contractRewards rewards_addr).getD 0 + amount) }

/-- `add_contract_stake`: add to `CONTRACT_STAKES` (default zero). -/
def add_contract_stake (s : State) (contract_addr : String) (amount : Nat) :
    State :=
  { s with
      contractStakes :=
        setA s.contractStakes contract_addr
          ((getA s.contractStakes contract_addr).getD 0 + amount) }

/-- `should_process_task`: true iff the interval has elapsed since the
stored last run; a missing clock entry is the `Std` not-found error. -/
def should_process_task (s : State) (key : String) (interval_in_seconds now : Nat) :
    Except ContractError Bool :=
  match getA s.lastProcessingTimes key with
  | none => .error .stdNotFound
  | some last_time => .ok (decide (last_time + interval_in_seconds ≤ now))

/-- `get_cumulative_reward_amount`: the non-zero reward entries (the code
collects them into a `HashMap`; a later lookup defaults to zero). -/
def get_cumulative_reward_amount (s : State) : List (String × Nat) :=
  s.contractRewards.filter (fun p => p.2 ≠ 0)

/-- One iteration of the `handle_liquid_staking_dapp_rewards` loop for one
contract: clamp the reward, and when it reaches the minimum create a
pending deposit record, add provisional stake, and zero the reward. -/
def processRewardContract (rewardMap : List (String × Nat)) (now height : Nat)
    (s : State) (c : String) : State :=
  match getA s.contractMetadata c with
  | none => s
  | some meta =>
    let raw_amount := (getA rewardMap c).getD 0
    let amount :=
      if meta.maximum_reward_amount < raw_amount then meta.maximum_reward_amount
      else raw_amount
    if meta.minimum_reward_amount ≤ amount then
      let next_id := s.nextDepositRecordId + 1
      let record : DepositRecord :=
        { id := next_id, contract_address := c, amount := amount,
          status := "pending", timestamp := now, block_height := height }
      let records := (getA s.depositRecords c).getD [] ++ [record]
      add_contract_stake
        { s with
            nextDepositRecordId := next_id,
            depositRecords := setA s.depositRecords c records,
            contractRewards := setA s.contractRewards c 0 }
        c amount
    else s

/-- `handle_liquid_staking_dapp_rewards`: the reward-to-deposit task
(reward map snapshotted up front, then one pass over the metadata keys). -/
def handle_liquid_staking_dapp_rewards (s : State) (now height : Nat) : State :=
  let rewardMap := get_cumulative_reward_amount s
  (mkeys s).foldl (processRewardContract rewardMap now height) s

/-- The record-rewriting function applied by the maturation scan: a
pending record becomes completed, anything else is untouched. -/
def completeRec (r : DepositRecord) : DepositRecord :=
  if r.status = "pending" then { r with status := "completed" } else r

/-- Inner loop of `get_total_liquid_stake` over one contract's deposit
records: accumulate the rewritten records, add each pending amount to the
completed stake and the running total, and checked-subtract it from the
provisional stake. -/
def matureRecords (c : String) :
    State → Nat → List DepositRecord → List DepositRecord →
      Except ContractError (State × Nat × List DepositRecord)
  | s, tls, acc, [] => .ok (s, tls, acc)
  | s, tls, acc, r :: rest =>
    if r.status = "pending" then
      let s1 : State :=
        { s with
            completedStakes :=
              setA s.completedStakes c
                ((getA s.completedStakes c).getD 0 + r.amount) }
      match checkedSub ((getA s1.contractStakes c).getD 0) r.amount with
      | none => .error .stdOverflow
      | some new_stake =>
        matureRecords c
          { s1 with contractStakes := setA s1.contractStakes c new_stake }
          (tls + r.amount) (acc ++ [completeRec r]) rest
    else
      matureRecords c s tls (acc ++ [r]) rest

/-- Outer loop of `get_total_liquid_stake` over the contract list; each
contract's rewritten record sequence is saved back in full (the explicit
match embeds the `?`-propagation of the source). -/
def matureContracts :
    State → Nat → List String → Except ContractError (State × Nat)
  | s, tls, [] => .ok (s, tls)
  | s, tls, c :: rest =>
    match matureRecords c s tls [] ((getA s.depositRecords c).getD []) with
    | .error e => .error e
    | .ok (s1, tls1, upd) =>
      matureContracts
        { s1 with depositRecords := setA s1.depositRecords c upd } tls1 rest

/-- `get_total_liquid_stake`: the maturation task — convert every pending
deposit record of every metadata contract to completed and persist the new
global total. -/
def get_total_liquid_stake (s : State) : Except ContractError State :=
  match matureContracts s s.totalLiquidStake (mkeys s) with
  | .error e => .error e
  | .ok (s1, tls) => .ok { s1 with totalLiquidStake := tls }

/-- `handle_arch_liquid_stake_interval` simply delegates to
`get_total_liquid_stake`. -/
def handle_arch_liquid_stake_interval (s : State) : Except ContractError State :=
  get_total_liquid_stake s

/-- `handle_redemption_rate_query` is a stub: no state change. -/
def handle_redemption_rate_query (s : State) : Except ContractError State :=
  .ok s

/-- Saving a task clock (`LAST_PROCESSING_TIMES.save`). -/
def saveClock (s : State) (key : String) (now : Nat) : State :=
  { s with lastProcessingTimes := setA s.lastProcessingTimes key now }

/-- `execute_cron_job`: evaluate the three interval gates in sequence,
running each due task and persisting its clock only when it ran (explicit
matches embed the `?`-propagation of the source). -/
def execute_cron_job (s : State) (now height : Nat) :
    Except ContractError State :=
  match should_process_task s LAST_LIQUID_STAKING_DAPP_REWARDS_TIME_KEY
      s.config.liquid_staking_interval now with
  | .error e => .error e
  | .ok due1 =>
    let s1 :=
      if due1 then
        saveClock (handle_liquid_staking_dapp_rewards s now height)
          LAST_LIQUID_STAKING_DAPP_REWARDS_TIME_KEY now
      else s
    match should_process_task s1 LAST_ARCH_LIQUID_STAKE_INTERVAL_TIME_KEY
        s.config.arch_liquid_stake_interval now with
    | .error e => .error e
    | .ok due2 =>
      match
        (if due2 then
          match handle_arch_liquid_stake_interval s1 with
          | .error e => .error e
          | .ok t => .ok (saveClock t LAST_ARCH_LIQUID_STAKE_INTERVAL_TIME_KEY now)
        else .ok s1 : Except ContractError State) with
      | .error e => .error e
      | .ok s2 =>
        match should_process_task s2 LAST_REDEMPTION_RATE_QUERY_TIME_KEY
            s.config.redemption_rate_query_interval now with
        | .error e => .error e
        | .ok due3 =>
          match
            (if due3 then
              match handle_redemption_rate_query s2 with
              | .error e => .error e
              | .ok t => .ok (saveClock t LAST_REDEMPTION_RATE_QUERY_TIME_KEY now)
            else .ok s2 : Except ContractError State) with
          | .error e => .error e
          | .ok s3 => .ok s3

/-- Sum of the completed stakes over a list of contracts, as accumulated
by the `distribute_liquidity` loop. -/
def sumCompletedOver (s : State) : List String → Nat
  | [] => 0
  | c :: rest => (getA s.completedStakes c).getD 0 + sumCompletedOver s rest

/-- One iteration of the `distribute_liquidity` write loop: persist the
truncated ratio of one contract's snapshotted completed stake over the
snapshotted total. -/
def writeStakeRatio (s0 : State) (total : Nat) (t : State) (c : String) :
    State :=
  { t with
      stakeRatios :=
        setA t.stakeRatios c
          (decimalFromRatio ((getA s0.completedStakes c).getD 0) total) }

/-- `distribute_liquidity`: when the total completed stake of the metadata
contracts is zero, do nothing; otherwise persist each contract's truncated
stake ratio (the write loop runs over the snapshotted stake map). -/
def distribute_liquidity (s : State) : State :=
  if sumCompletedOver s (mkeys s) = 0 then s
  else (mkeys s).foldl (writeStakeRatio s (sumCompletedOver s (mkeys s))) s

/-- The non-zero redemption records of the metadata contracts, as gathered
by `execute_distribute_redeem_tokens`. -/
def redemptionEntries (s : State) : List (String × Nat) :=
  (mkeys s).filterMap (fun c =>
    if (getA s.redemptionRecords c).getD 0 = 0 then none
    else some (c, (getA s.redemptionRecords c).getD 0))

/-- Total of the gathered redemption records. -/
def totalRedeemTokens (s : State) : Nat :=
  sumVals (redemptionEntries s)

/-- One iteration of the `execute_distribute_redeem_tokens` loop: persist
one contract's truncated redemption ratio and zero its record. -/
def writeRedeemRatio (total : Nat) (t : State) (p : String × Nat) : State :=
  { t with
      redeemTokenRatios :=
        setA t.redeemTokenRatios p.1 (decimalFromRatio p.2 total),
      redemptionRecords := setA t.redemptionRecords p.1 0 }

/-- Core of `execute_distribute_redeem_tokens` (after the owner check):
fail when the total is zero, otherwise persist each contract's truncated
redemption ratio and zero its redemption record. -/
def distribute_redeem_tokens_core (s : State) : Except ContractError State :=
  if totalRedeemTokens s = 0 then .error .noRedemptionRecords
  else .ok ((redemptionEntries s).foldl (writeRedeemRatio (totalRedeemTokens s)) s)

/-- One iteration of the `reset_all_completed_deposit_records` loop: keep
only the records of one contract that are not completed. -/
def resetRecordsStep (t : State) (c : String) : State :=
  { t with
      depositRecords :=
        setA t.depositRecords c
          (((getA t.depositRecords c).getD []).filter
            (fun r => r.status ≠ "completed")) }

/-- `reset_all_completed_deposit_records`: for every metadata contract keep
only the records that are not completed. -/
def reset_all_completed_deposit_records (s : State) : State :=
  (mkeys s).foldl resetRecordsStep s

/-- `reset_stake_ratios`: remove every stake-ratio entry and zero every
completed-stake entry (keys are kept, `TOTAL_LIQUID_STAKE` untouched). -/
def reset_stake_ratios (s : State) : State :=
  { s with
      stakeRatios := [],
      completedStakes := s.completedStakes.map (fun p => (p.1, 0)) }

/-- `reset_redemption_ratios`: remove every redemption-ratio entry. -/
def reset_redemption_ratios (s : State) : State :=
  { s with redeemTokenRatios := [] }

/-- Core of `execute_subtract_from_total_liquid_stake` (after the owner
check): checked subtraction on the global total only. -/
def subtract_from_total_liquid_stake_core (s : State) (amount : Nat) :
    Except ContractError State :=
  match checkedSub s.totalLiquidStake amount with
  | none => .error .stdOverflow
  | some v => .ok { s with totalLiquidStake := v }

/-- src/msg.rs `ExecuteMsg`; env data (block time, height) rides on the
variants that read it, and `sender` on the owner-gated ones. -/
inductive Msg where
  | CronJob (now height : Nat)
  | SetContractMetadata (sender contract_address rewards_address
      liquidity_provider_address redemption_address : String)
      (minimum_reward_amount maximum_reward_amount : Nat)
  | AddStake (sender : String) (amount : Nat)
  | UpdateReward (sender rewards_address : String) (amount : Nat)
  | BulkUpdateRewards (sender : String) (updates : List (String × Nat))
  | ResetAllCompletedDepositRecords (sender : String)
  | ResetStakeRatios (sender : String)
  | DistributeLiquidity (sender : String)
  | DistributeRedeemTokens (sender : String)
  | ResetRedemptionRatios (sender : String)
  | SetRedeemTokens (sender : String) (amount : Nat) (contract_address : String)
  | SubtractFromTotalLiquidStake (sender : String) (amount : Nat)
  | EmitLiquidStakeEvent (sender : String)
  | EmitDistributeLiquidityEvent (sender : String)
  deriving DecidableEq

/-- The `execute` entry point: dispatch on the message variant exactly as
src/contract.rs does (address validation, which never fails for the opaque
strings modelled here, is elided; each admin handler starts with the
owner check of the source). -/
def execute (s : State) (m : Msg) : Except ContractError State :=
  match m with
  | .CronJob now height => execute_cron_job s now height
  | .SetContractMetadata sender contract_address rewards_address
      liquidity_provider_address redemption_address
      minimum_reward_amount maximum_reward_amount =>
    if sender ≠ s.config.owner then .error .unauthorized
    else if maximum_reward_amount < minimum_reward_amount then
      .error .invalidRewardAmountRange
    else
      .ok { s with
              contractMetadata :=
                setA s.contractMetadata contract_address
                  { rewards_address := rewards_address
                    liquidity_provider_address := liquidity_provider_address
                    minimum_reward_amount := minimum_reward_amount
                    maximum_reward_amount := maximum_reward_amount
                    redemption_address := redemption_address } }
  | .AddStake sender amount => .ok (add_contract_stake s sender amount)
  | .UpdateReward sender rewards_address amount =>
    if sender ≠ s.config.owner then .error .unauthorized
    else .ok (add_reward_to_contract s rewards_address amount)
  | .BulkUpdateRewards sender updates =>
    if sender ≠ s.config.owner then .error .unauthorized
    else .ok (updates.foldl (fun t u => add_reward_to_contract t u.1 u.2) s)
  | .ResetAllCompletedDepositRecords sender =>
    if sender ≠ s.config.owner then .error .unauthorized
    else .ok (reset_all_completed_deposit_records s)
  | .ResetStakeRatios sender =>
    if sender ≠ s.config.owner then .error .unauthorized
    else .ok (reset_stake_ratios s)
  | .DistributeLiquidity sender =>
    if sender ≠ s.config.owner then .error .unauthorized
    else .ok (distribute_liquidity s)
  | .DistributeRedeemTokens sender =>
    if sender ≠ s.config.owner then .error .unauthorized
    else distribute_redeem_tokens_core s
  | .ResetRedemptionRatios sender =>
    if sender ≠ s.config.owner then .error .unauthorized
    else .ok (reset_redemption_ratios s)
  | .SetRedeemTokens sender amount contract_address =>
    if sender ≠ s.config.owner then .error .unauthorized
    else if (getA s.contractMetadata contract_address).isSome then
      .ok { s with
              redemptionRecords :=
                setA s.redemptionRecords contract_address
                  ((getA s.redemptionRecords contract_address).getD 0 + amount) }
    else .error (.contractNotFound contract_address)
  | .SubtractFromTotalLiquidStake sender amount =>
    if sender ≠ s.config.owner then .error .unauthorized
    else subtract_from_total_liquid_stake_core s amount
  | .EmitLiquidStakeEvent sender =>
    if sender ≠ s.config.owner then .error .unauthorized
    else .ok s
  | .EmitDistributeLiquidityEvent sender =>
    if sender ≠ s.config.owner then .error .unauthorized
    else .ok s

/-- States reachable from some instantiation through successful `execute`
calls whose messages all satisfy `allowed` (failed calls roll back, so
they do not change the state and need no step). -/
inductive ReachableFrom (allowed : Msg → Prop) : State → Prop
  | init (msg : InstantiateMsg) (sender : String) (now : Nat) :
      ReachableFrom allowed (instantiate msg sender now)
  | step {s s' : State} {m : Msg} :
      ReachableFrom allowed s → allowed m → execute s m = .ok s' →
      ReachableFrom allowed s'

/-- All reachable states. -/
def Reachable : State → Prop := ReachableFrom (fun _ => True)

/-- The `GetRedeemTokens` query: the `REDEEM_TOKENS` balance of an
account, defaulting to zero. -/
def queryGetRedeemTokens (s : State) (contract : String) : Nat :=
  (getA s.redeemTokens contract).getD 0

/-- Pending total of one record list. -/
def pendingSum : List DepositRecord → Nat
  | [] => 0
  | r :: rest => (if r.status = "pending" then r.amount else 0) + pendingSum rest

/-- One account's deposit records (empty when absent). -/
def recsOf (s : State) (c : String) : List DepositRecord :=
  (getA s.depositRecords c).getD []

/-- One account's pending deposit total. -/
def pendingOf (s : State) (c : String) : Nat := pendingSum (recsOf s c)

/-- Pending deposit total over a list of contracts. -/
def sumPendingOver (s : State) : List String → Nat
  | [] => 0
  | c :: rest => pendingOf s c + sumPendingOver s rest

/-! ### Association-list lemmas -/

/-- Successor state of a successful call (identity on failure — failed
calls roll back). -/
def stepOk (s : State) (m : Msg) : State :=
  match execute s m with
  | .ok t => t
  | .error _ => s

/-- A freshly instantiated contract (owner `admin`, all intervals zero,
instantiated at time zero). -/
def exInit : State := instantiate ⟨0, 0, 0, 0, 0⟩ "admin" 0

/-- One metadata account `c1` with reward bounds [50, 1000]. -/
def exMeta : State :=
  stepOk exInit (.SetContractMetadata "admin" "c1" "r1" "l1" "rd1" 50 1000)

/-- Reward balance 100 accrued for `c1`. -/
def exRwd : State := stepOk exMeta (.UpdateReward "admin" "c1" 100)

/-- After the reward-to-deposit task: one pending record of amount 100. -/
def exPend : State := handle_liquid_staking_dapp_rewards exRwd 1 1

/-- After the maturation task on `exPend`. -/
def exMat : State :=
  match get_total_liquid_stake exPend with
  | .ok t => t
  | .error _ => exPend

/-- Reward balance 1500 accrued for `c1` (clamped to 1000 by the task). -/
def exRwd1500 : State := stepOk exMeta (.UpdateReward "admin" "c1" 1500)

/-- Reward balance 30 accrued for `c1` (below the minimum of 50). -/
def exRwd30 : State := stepOk exMeta (.UpdateReward "admin" "c1" 30)

/-- Redemption balances summed over a list of accounts (the claim's
"sum of RedemptionBalance over all known accounts"). -/
def sumRedemptionOver (s : State) : List String → Nat
  | [] => 0
  | c :: rest => (getA s.redemptionRecords c).getD 0 + sumRedemptionOver s rest

/-- A second metadata account `c2`. -/
def exMetaB : State :=
  stepOk exMeta (.SetContractMetadata "admin" "c2" "r2" "l2" "rd2" 50 1000)

/-- Redemption balances 200 for `c1` and 800 for `c2`. -/
def exRedeem : State :=
  stepOk (stepOk exMetaB (.SetRedeemTokens "admin" 200 "c1"))
    (.SetRedeemTokens "admin" 800 "c2")

/-- After distributing the redeem tokens of `exRedeem`. -/
def exRedeemDist : State := stepOk exRedeem (.DistributeRedeemTokens "admin")

/-- Total number of deposit records in the store. -/
def recordCount : List (String × List DepositRecord) → Nat
  | [] => 0
  | p :: rest => p.2.length + recordCount rest

/-- Metadata account `c1` with an all-permissive minimum of zero. -/
def exMeta0 : State :=
  stepOk exInit (.SetContractMetadata "admin" "c1" "r1" "l1" "rd1" 0 1000)

/-- The cron job with all three gates decided up front against the
original clock values — the reference shape used to state that each gate
is decided only by its own clock and that a not-due task never blocks the
others. -/
def cronJobSpec (s : State) (now height l1 l2 l3 : Nat) :
    Except ContractError State :=
  let s1 :=
    if l1 + s.config.liquid_staking_interval ≤ now then
      saveClock (handle_liquid_staking_dapp_rewards s now height)
        LAST_LIQUID_STAKING_DAPP_REWARDS_TIME_KEY now
    else s
  match
    (if l2 + s.config.arch_liquid_stake_interval ≤ now then
      match get_total_liquid_stake s1 with
      | .error e => .error e
      | .ok t => .ok (saveClock t LAST_ARCH_LIQUID_STAKE_INTERVAL_TIME_KEY now)
    else .ok s1 : Except ContractError State) with
  | .error e => .error e
  | .ok s2 =>
    .ok (if l3 + s.config.redemption_rate_query_interval ≤ now then
      saveClock s2 LAST_REDEMPTION_RATE_QUERY_TIME_KEY now
    else s2)

/-- A fresh contract with all intervals 10, instantiated at time 0. -/
def exGate : State := instantiate ⟨10, 10, 10, 10, 10⟩ "admin" 0

/-- The state after ticking `exGate` at time 10 (all tasks due). -/
def exGateRun : State := stepOk exGate (.CronJob 10 1)

/-- Is the message the explicit admin subtraction from the global total? -/
def isSubtractMsg : Msg → Bool
  | .SubtractFromTotalLiquidStake _ _ => true
  | _ => false

/-- Is the message the stake-ratio reset (which zeroes completed stakes)? -/
def isResetStakeRatiosMsg : Msg → Bool
  | .ResetStakeRatios _ => true
  | _ => false

/-- After one tick of `exRwd` at time 1 (all intervals zero): the reward
is converted and matured in the same call, so completed stake is 100. -/
def exMatCron : State := stepOk exRwd (.CronJob 1 1)

/-- After the admin stake-ratio reset: completed stakes zeroed, global
total left at 100. -/
def exReset : State := stepOk exMatCron (.ResetStakeRatios "admin")

/-- Persisted stake-ratio numerators summed over a list of accounts. -/
def sumRatiosOver (t : State) : List String → Nat
  | [] => 0
  | c :: rest => (getA t.stakeRatios c).getD 0 + sumRatiosOver t rest

/-- The ids of a record list. -/
def recIds (recs : List DepositRecord) : List Nat := recs.map (·.id)

/-- All record ids stored in a deposit-record map, in storage order. -/
def allIdsL : List (String × List DepositRecord) → List Nat
  | [] => []
  | p :: rest => recIds p.2 ++ allIdsL rest

/-- All deposit-record ids of a state. -/
def allIds (s : State) : List Nat := allIdsL s.depositRecords

/-- The id bookkeeping invariant: every stored id is bounded by the global
counter, no id occurs twice anywhere, and each account's sequence carries
strictly increasing ids. -/
def IdInv (s : State) : Prop :=
  (∀ i ∈ allIds s, i ≤ s.nextDepositRecordId) ∧
  (allIds s).Nodup ∧
  (∀ c recs, getA s.depositRecords c = some recs →
    (recIds recs).Pairwise (· < ·))

/-- The id-evolution contract of one successful call: the global counter
never decreases, and every id present afterwards is either an old id or a
fresh one drawn strictly above the old counter and within the new one. -/
def IdStep (s s' : State) : Prop :=
  s.nextDepositRecordId ≤ s'.nextDepositRecordId ∧
  (∀ i ∈ allIds s', i ∈ allIds s ∨
    (s.nextDepositRecordId < i ∧ i ≤ s'.nextDepositRecordId))

/-! ### Theorems -/

theorem getA_setA_self {α : Type} (m : List (String × α)) (k : String) (v : α) :
    getA (setA m k v) k = some v := by
  induction m with
  | nil => simp [setA, getA]
  | cons p rest ih =>
    obtain ⟨k', v'⟩ := p
    by_cases h : k' = k <;> simp [setA, getA, h, ih]

theorem getA_setA_ne {α : Type} (m : List (String × α)) {k k' : String} (v : α)
    (h : k ≠ k') : getA (setA m k v) k' = getA m k' := by
  induction m with
  | nil => simp [setA, getA, h]
  | cons p rest ih =>
    obtain ⟨k'', v'⟩ := p
    by_cases hk : k'' = k
    · subst hk
      simp [setA, getA, h]
    · simp [setA, getA, hk, ih]

theorem setA_same {α : Type} {m : List (String × α)} {k : String} {v : α}
    (h : getA m k = some v) : setA m k v = m := by
  induction m with
  | nil => simp [getA] at h
  | cons p rest ih =>
    obtain ⟨k', v'⟩ := p
    by_cases hk : k' = k
    · subst hk
      simp [getA] at h
      simp [setA, h]
    · simp [getA, hk] at h
      simp [setA, hk, ih h]

theorem getA_eq_none_iff {α : Type} (m : List (String × α)) (k : String) :
    getA m k = none ↔ k ∉ m.map Prod.fst := by
  induction m with
  | nil => simp [getA]
  | cons p rest ih =>
    obtain ⟨k', v'⟩ := p
    by_cases hk : k' = k <;> simp [getA, hk, ih, Ne.symm, eq_comm]

theorem keys_setA_of_mem {α : Type} {m : List (String × α)} {k : String} (v : α)
    (h : k ∈ m.map Prod.fst) :
    (setA m k v).map Prod.fst = m.map Prod.fst := by
  induction m with
  | nil => simp at h
  | cons p rest ih =>
    obtain ⟨k', v'⟩ := p
    by_cases hk : k' = k
    · simp [setA, hk]
    · have hmem : k ∈ rest.map Prod.fst := by
        rcases List.mem_map.mp h with ⟨q, hq, hq1⟩
        rcases List.mem_cons.mp hq with h1 | h1
        · exact absurd (hq1 ▸ congrArg Prod.fst h1.symm) (by simpa using hk)
        · exact List.mem_map.mpr ⟨q, h1, hq1⟩
      simp [setA, hk, ih hmem]

theorem keys_setA_of_not_mem {α : Type} {m : List (String × α)} {k : String}
    (v : α) (h : k ∉ m.map Prod.fst) :
    (setA m k v).map Prod.fst = m.map Prod.fst ++ [k] := by
  induction m with
  | nil => simp [setA]
  | cons p rest ih =>
    obtain ⟨k', v'⟩ := p
    have hk : k' ≠ k := fun heq => h (by simp [heq])
    have hrest : k ∉ rest.map Prod.fst := fun hmem => h (by simp [hmem])
    simp [setA, hk, ih hrest]

theorem sumVals_setA_add (m : List (String × Nat)) (k : String) (a : Nat) :
    sumVals (setA m k ((getA m k).getD 0 + a)) = sumVals m + a := by
  induction m with
  | nil => simp [setA, getA, sumVals]
  | cons p rest ih =>
    obtain ⟨k', v'⟩ := p
    by_cases hk : k' = k
    · subst hk
      simp [setA, getA, sumVals]
      omega
    · simp [setA, getA, hk, sumVals, ih]
      omega

/-! ### Frame lemmas: which state fields each handler leaves untouched -/

theorem processReward_frame (rm : List (String × Nat)) (now height : Nat)
    (s : State) (c : String) :
    (processRewardContract rm now height s c).config = s.config ∧
    (processRewardContract rm now height s c).lastProcessingTimes =
      s.lastProcessingTimes ∧
    (processRewardContract rm now height s c).totalLiquidStake =
      s.totalLiquidStake ∧
    (processRewardContract rm now height s c).stakeRatios = s.stakeRatios ∧
    (processRewardContract rm now height s c).redeemTokens = s.redeemTokens ∧
    (processRewardContract rm now height s c).redeemTokenRatios =
      s.redeemTokenRatios ∧
    (processRewardContract rm now height s c).contractMetadata =
      s.contractMetadata ∧
    (processRewardContract rm now height s c).redemptionRecords =
      s.redemptionRecords ∧
    (processRewardContract rm now height s c).completedStakes =
      s.completedStakes := by
  unfold processRewardContract
  split
  · simp
  · dsimp only
    split_ifs <;> simp [add_contract_stake]

theorem foldReward_frame (rm : List (String × Nat)) (now height : Nat)
    (l : List String) (t : State) :
    ((l.foldl (processRewardContract rm now height) t).config = t.config ∧
     (l.foldl (processRewardContract rm now height) t).lastProcessingTimes =
       t.lastProcessingTimes ∧
     (l.foldl (processRewardContract rm now height) t).totalLiquidStake =
       t.totalLiquidStake ∧
     (l.foldl (processRewardContract rm now height) t).stakeRatios =
       t.stakeRatios ∧
     (l.foldl (processRewardContract rm now height) t).redeemTokens =
       t.redeemTokens ∧
     (l.foldl (processRewardContract rm now height) t).redeemTokenRatios =
       t.redeemTokenRatios ∧
     (l.foldl (processRewardContract rm now height) t).contractMetadata =
       t.contractMetadata ∧
     (l.foldl (processRewardContract rm now height) t).redemptionRecords =
       t.redemptionRecords ∧
     (l.foldl (processRewardContract rm now height) t).completedStakes =
       t.completedStakes) := by
  induction l generalizing t with
  | nil => simp
  | cons c rest ih =>
    have h1 := processReward_frame rm now height t c
    have h2 := ih (processRewardContract rm now height t c)
    simp only [List.foldl_cons]
    exact ⟨h2.1.trans h1.1, (h2.2.1).trans h1.2.1, (h2.2.2.1).trans h1.2.2.1,
      (h2.2.2.2.1).trans h1.2.2.2.1, (h2.2.2.2.2.1).trans h1.2.2.2.2.1,
      (h2.2.2.2.2.2.1).trans h1.2.2.2.2.2.1,
      (h2.2.2.2.2.2.2.1).trans h1.2.2.2.2.2.2.1,
      (h2.2.2.2.2.2.2.2.1).trans h1.2.2.2.2.2.2.2.1,
      (h2.2.2.2.2.2.2.2.2).trans h1.2.2.2.2.2.2.2.2⟩

theorem handleRewards_frame (s : State) (now height : Nat) :
    (handle_liquid_staking_dapp_rewards s now height).config = s.config ∧
    (handle_liquid_staking_dapp_rewards s now height).lastProcessingTimes =
      s.lastProcessingTimes ∧
    (handle_liquid_staking_dapp_rewards s now height).totalLiquidStake =
      s.totalLiquidStake ∧
    (handle_liquid_staking_dapp_rewards s now height).stakeRatios =
      s.stakeRatios ∧
    (handle_liquid_staking_dapp_rewards s now height).redeemTokens =
      s.redeemTokens ∧
    (handle_liquid_staking_dapp_rewards s now height).redeemTokenRatios =
      s.redeemTokenRatios ∧
    (handle_liquid_staking_dapp_rewards s now height).contractMetadata =
      s.contractMetadata ∧
    (handle_liquid_staking_dapp_rewards s now height).redemptionRecords =
      s.redemptionRecords ∧
    (handle_liquid_staking_dapp_rewards s now height).completedStakes =
      s.completedStakes :=
  foldReward_frame (get_cumulative_reward_amount s) now height (mkeys s) s

theorem matureRecords_frame (c : String) (recs : List DepositRecord) :
    ∀ (s : State) (tls : Nat) (acc : List DepositRecord) (out : State × Nat × List DepositRecord),
    matureRecords c s tls acc recs = .ok out →
    out.1.config = s.config ∧
    out.1.lastProcessingTimes = s.lastProcessingTimes ∧
    out.1.depositRecords = s.depositRecords ∧
    out.1.totalLiquidStake = s.totalLiquidStake ∧
    out.1.stakeRatios = s.stakeRatios ∧
    out.1.redeemTokens = s.redeemTokens ∧
    out.1.redeemTokenRatios = s.redeemTokenRatios ∧
    out.1.contractMetadata = s.contractMetadata ∧
    out.1.contractRewards = s.contractRewards ∧
    out.1.nextDepositRecordId = s.nextDepositRecordId ∧
    out.1.redemptionRecords = s.redemptionRecords := by
  induction recs with
  | nil =>
    intro s tls acc out h
    have h2 : (s, tls, acc) = out := by simpa [matureRecords] using h
    subst h2
    simp
  | cons r rest ih =>
    intro s tls acc out h
    by_cases hp : r.status = "pending"
    · cases hs : checkedSub ((getA s.contractStakes c).getD 0) r.amount with
      | none => simp [matureRecords, hp, hs] at h
      | some new_stake =>
        simp only [matureRecords, hp, if_true, hs] at h
        simpa using ih _ _ _ _ h
    · simp only [matureRecords, hp, if_false] at h
      exact ih _ _ _ _ h

theorem matureRecords_effects (c : String) (recs : List DepositRecord) :
    ∀ (s : State) (tls : Nat) (acc : List DepositRecord) (out : State × Nat × List DepositRecord),
    matureRecords c s tls acc recs = .ok out →
    out.2.1 = tls + pendingSum recs ∧
    out.2.2 = acc ++ recs.map completeRec ∧
    (getA out.1.completedStakes c).getD 0 =
      (getA s.completedStakes c).getD 0 + pendingSum recs ∧
    (getA out.1.contractStakes c).getD 0 + pendingSum recs =
      (getA s.contractStakes c).getD 0 ∧
    sumVals out.1.completedStakes = sumVals s.completedStakes + pendingSum recs ∧
    (∀ k, k ≠ c → getA out.1.completedStakes k = getA s.completedStakes k ∧
      getA out.1.contractStakes k = getA s.contractStakes k) := by
  induction recs with
  | nil =>
    intro s tls acc out h
    have h2 : (s, tls, acc) = out := by simpa [matureRecords] using h
    subst h2
    simp [pendingSum]
  | cons r rest ih =>
    intro s tls acc out h
    by_cases hp : r.status = "pending"
    · cases hs : checkedSub ((getA s.contractStakes c).getD 0) r.amount with
      | none => simp [matureRecords, hp, hs] at h
      | some new_stake =>
        have hsub : r.amount ≤ (getA s.contractStakes c).getD 0 ∧
            new_stake = (getA s.contractStakes c).getD 0 - r.amount := by
          by_cases hle : r.amount ≤ (getA s.contractStakes c).getD 0
          · simp [checkedSub, hle] at hs
            exact ⟨hle, hs.symm⟩
          · simp [checkedSub, hle] at hs
        simp only [matureRecords, hp, if_true, hs] at h
        obtain ⟨h1, h2, h3, h4, h5, h6⟩ := ih _ _ _ _ h
        refine ⟨?_, ?_, ?_, ?_, ?_, ?_⟩
        · simp [h1, pendingSum, hp]
          omega
        · simp [h2, List.map_cons]
        · simp only [getA_setA_self, Option.getD_some] at h3
          simp [h3, pendingSum, hp]
          omega
        · simp only [getA_setA_self, Option.getD_some] at h4
          simp only [pendingSum, hp, if_true]
          omega
        · rw [h5, sumVals_setA_add]
          simp [pendingSum, hp]
          omega
        · intro k hk
          obtain ⟨hc1, hc2⟩ := h6 k hk
          rw [hc1, hc2]
          constructor
          · exact getA_setA_ne _ _ (fun hx => hk hx.symm)
          · exact getA_setA_ne _ _ (fun hx => hk hx.symm)
    · simp only [matureRecords, hp, if_false] at h
      obtain ⟨h1, h2, h3, h4, h5, h6⟩ := ih _ _ _ _ h
      refine ⟨?_, ?_, ?_, ?_, ?_, h6⟩
      · simp [h1, pendingSum, hp]
      · simp [h2, completeRec, hp]
      · simp [h3, pendingSum, hp]
      · simp only [pendingSum, hp, if_false]
        omega
      · simp [h5, pendingSum, hp]

theorem matureRecords_err (c : String) (recs : List DepositRecord) :
    ∀ (s : State) (tls : Nat) (acc : List DepositRecord),
    (getA s.contractStakes c).getD 0 < pendingSum recs →
    matureRecords c s tls acc recs = .error .stdOverflow := by
  induction recs with
  | nil => intro s tls acc h; simp [pendingSum] at h
  | cons r rest ih =>
    intro s tls acc h
    by_cases hp : r.status = "pending"
    · by_cases hle : r.amount ≤ (getA s.contractStakes c).getD 0
      · simp only [matureRecords, hp, if_true, checkedSub, hle, if_pos]
        apply ih
        simp only [pendingSum, hp, if_true] at h
        have := getA_setA_self s.contractStakes c
          ((getA s.contractStakes c).getD 0 - r.amount)
        simp only [this, Option.getD_some]
        omega
      · simp [matureRecords, hp, checkedSub, hle]
    · simp only [matureRecords, hp, if_false]
      apply ih
      simp only [pendingSum, hp, if_false] at h
      omega

theorem matureRecords_ok_of_le (c : String) (recs : List DepositRecord) :
    ∀ (s : State) (tls : Nat) (acc : List DepositRecord),
    pendingSum recs ≤ (getA s.contractStakes c).getD 0 →
    ∃ out, matureRecords c s tls acc recs = .ok out := by
  induction recs with
  | nil => intro s tls acc _; exact ⟨_, rfl⟩
  | cons r rest ih =>
    intro s tls acc h
    by_cases hp : r.status = "pending"
    · simp only [pendingSum, hp, if_true] at h
      have hle : r.amount ≤ (getA s.contractStakes c).getD 0 := by omega
      simp only [matureRecords, hp, if_true, checkedSub, hle, if_pos]
      apply ih
      have := getA_setA_self s.contractStakes c
        ((getA s.contractStakes c).getD 0 - r.amount)
      simp only [this, Option.getD_some]
      omega
    · simp only [matureRecords, hp, if_false]
      apply ih
      simp only [pendingSum, hp, if_false] at h
      omega

theorem sumPendingOver_congr {s1 s2 : State} (l : List String)
    (h : ∀ c ∈ l, pendingOf s1 c = pendingOf s2 c) :
    sumPendingOver s1 l = sumPendingOver s2 l := by
  induction l with
  | nil => rfl
  | cons c rest ih =>
    simp only [sumPendingOver, h c (by simp)]
    rw [ih (fun c' hc' => h c' (by simp [hc']))]

theorem matureContracts_frame (l : List String) :
    ∀ (s : State) (tls : Nat) (out : State × Nat),
    matureContracts s tls l = .ok out →
    out.1.config = s.config ∧
    out.1.lastProcessingTimes = s.lastProcessingTimes ∧
    out.1.totalLiquidStake = s.totalLiquidStake ∧
    out.1.stakeRatios = s.stakeRatios ∧
    out.1.redeemTokens = s.redeemTokens ∧
    out.1.redeemTokenRatios = s.redeemTokenRatios ∧
    out.1.contractMetadata = s.contractMetadata ∧
    out.1.contractRewards = s.contractRewards ∧
    out.1.nextDepositRecordId = s.nextDepositRecordId ∧
    out.1.redemptionRecords = s.redemptionRecords := by
  induction l with
  | nil =>
    intro s tls out h
    have h2 : (s, tls) = out := by simpa [matureContracts] using h
    subst h2
    simp
  | cons c rest ih =>
    intro s tls out h
    simp only [matureContracts] at h
    cases hm : matureRecords c s tls [] ((getA s.depositRecords c).getD []) with
    | error e => rw [hm] at h; simp at h
    | ok trip =>
      obtain ⟨s1, tls1, upd⟩ := trip
      rw [hm] at h
      obtain ⟨f1, f2, f3, f4, f5, f6, f7, f8, f9, f10, f11⟩ :=
        matureRecords_frame c _ _ _ _ _ hm
      obtain ⟨g1, g2, g3, g4, g5, g6, g7, g8, g9, g10⟩ := ih _ _ _ h
      exact ⟨g1.trans f1, g2.trans f2, g3.trans f4, g4.trans f5, g5.trans f6,
        g6.trans f7, g7.trans f8, g8.trans f9, g9.trans f10, g10.trans f11⟩

theorem matureContracts_sum (l : List String) :
    ∀ (s : State) (tls : Nat) (out : State × Nat),
    matureContracts s tls l = .ok out →
    out.2 + sumVals s.completedStakes = tls + sumVals out.1.completedStakes := by
  induction l with
  | nil =>
    intro s tls out h
    have h2 : (s, tls) = out := by simpa [matureContracts] using h
    subst h2
    simp [Nat.add_comm]
  | cons c rest ih =>
    intro s tls out h
    simp only [matureContracts] at h
    cases hm : matureRecords c s tls [] ((getA s.depositRecords c).getD []) with
    | error e => rw [hm] at h; simp at h
    | ok trip =>
      obtain ⟨s1, tls1, upd⟩ := trip
      rw [hm] at h
      obtain ⟨e1, e2, e3, e4, e5, e6⟩ := matureRecords_effects c _ _ _ _ _ hm
      have hrec := ih _ _ _ h
      dsimp only at e1 e5 hrec
      omega

theorem matureContracts_effects (l : List String) :
    ∀ (s : State) (tls : Nat) (out : State × Nat),
    l.Nodup →
    matureContracts s tls l = .ok out →
    (∀ c, c ∉ l →
      getA out.1.depositRecords c = getA s.depositRecords c ∧
      getA out.1.completedStakes c = getA s.completedStakes c ∧
      getA out.1.contractStakes c = getA s.contractStakes c) ∧
    (∀ c, c ∈ l →
      getA out.1.depositRecords c = some ((recsOf s c).map completeRec) ∧
      (getA out.1.completedStakes c).getD 0 =
        (getA s.completedStakes c).getD 0 + pendingOf s c ∧
      (getA out.1.contractStakes c).getD 0 + pendingOf s c =
        (getA s.contractStakes c).getD 0 ∧
      pendingOf s c ≤ (getA s.contractStakes c).getD 0) ∧
    out.2 = tls + sumPendingOver s l := by
  induction l with
  | nil =>
    intro s tls out _ h
    have h2 : (s, tls) = out := by simpa [matureContracts] using h
    subst h2
    simp [sumPendingOver]
  | cons c rest ih =>
    intro s tls out hnd h
    obtain ⟨hcrest, hndrest⟩ := List.nodup_cons.mp hnd
    simp only [matureContracts] at h
    cases hm : matureRecords c s tls [] ((getA s.depositRecords c).getD []) with
    | error e => rw [hm] at h; simp at h
    | ok trip =>
      obtain ⟨s1, tls1, upd⟩ := trip
      rw [hm] at h
      obtain ⟨e1, e2, e3, e4, e5, e6⟩ := matureRecords_effects c _ _ _ _ _ hm
      obtain ⟨f1, f2, f3, f4, f5, f6, f7, f8, f9, f10, f11⟩ :=
        matureRecords_frame c _ _ _ _ _ hm
      dsimp only at e1 e2 e3 e4 e5 f3
      rw [List.nil_append] at e2
      obtain ⟨ihA, ihB, ihC⟩ := ih _ _ _ hndrest h
      have hs2d :
          ({ s1 with depositRecords := setA s1.depositRecords c upd } : State).depositRecords
            = setA s.depositRecords c ((recsOf s c).map completeRec) := by
        rw [f3, e2]; rfl
      have hpend : ∀ c', c' ≠ c →
          recsOf ({ s1 with depositRecords := setA s1.depositRecords c upd } : State) c'
            = recsOf s c' := by
        intro c' hc'
        unfold recsOf
        rw [hs2d, getA_setA_ne _ _ (fun hx => hc' hx.symm)]
      refine ⟨?_, ?_, ?_⟩
      · intro c' hc'
        have hne : c' ≠ c := fun hx => hc' (hx ▸ List.mem_cons_self c rest)
        have hnr : c' ∉ rest := fun hx => hc' (List.mem_cons_of_mem c hx)
        obtain ⟨a1, a2, a3⟩ := ihA c' hnr
        refine ⟨?_, ?_, ?_⟩
        · rw [a1, hs2d, getA_setA_ne _ _ (fun hx => hne hx.symm)]
        · rw [a2]; exact (e6 c' hne).1
        · rw [a3]; exact (e6 c' hne).2
      · intro c' hc'
        rcases List.mem_cons.mp hc' with hc0 | hcr
        · subst hc0
          obtain ⟨a1, a2, a3⟩ := ihA c' hcrest
          refine ⟨?_, ?_, ?_, ?_⟩
          · rw [a1, hs2d, getA_setA_self]
          · rw [a2]; exact e3
          · rw [a3]; exact e4
          · have hrfl : pendingOf s c' = pendingSum ((getA s.depositRecords c').getD []) := rfl
            omega
        · have hne : c' ≠ c := fun hx => hcrest (hx ▸ hcr)
          obtain ⟨b1, b2, b3, b4⟩ := ihB c' hcr
          have hrc : recsOf ({ s1 with depositRecords := setA s1.depositRecords c upd } : State) c' = recsOf s c' :=
            hpend c' hne
          have hpc : pendingOf ({ s1 with depositRecords := setA s1.depositRecords c upd } : State) c' = pendingOf s c' := by
            unfold pendingOf; rw [hrc]
          refine ⟨?_, ?_, ?_, ?_⟩
          · rw [b1, hrc]
          · rw [b2, hpc]
            have := (e6 c' hne).1
            dsimp only at this
            rw [this]
          · have hst := (e6 c' hne).2
            rw [hpc] at b3
            dsimp only at b3 hst
            rw [hst] at b3
            exact b3
          · have := (e6 c' hne).2
            dsimp only at this
            rw [hpc, this] at b4
            exact b4
      · have hsum : sumPendingOver
            ({ s1 with depositRecords := setA s1.depositRecords c upd } : State) rest
              = sumPendingOver s rest := by
          apply sumPendingOver_congr
          intro c' hc'
          have hne : c' ≠ c := fun hx => hcrest (hx ▸ hc')
          unfold pendingOf
          rw [hpend c' hne]
        rw [ihC, hsum, e1]
        simp only [sumPendingOver]
        have : pendingOf s c = pendingSum ((getA s.depositRecords c).getD []) := rfl
        omega

theorem matureContracts_err (l : List String) :
    ∀ (s : State) (tls : Nat),
    (∃ c ∈ l, (getA s.contractStakes c).getD 0 < pendingOf s c) →
    matureContracts s tls l = .error .stdOverflow := by
  induction l with
  | nil => intro s tls h; simp at h
  | cons c rest ih =>
    intro s tls h
    by_cases hc : (getA s.contractStakes c).getD 0 < pendingOf s c
    · have herr := matureRecords_err c ((getA s.depositRecords c).getD []) s tls [] hc
      simp only [matureContracts, herr]
    · obtain ⟨c', hc', hlt⟩ := h
      have hcc : c' ≠ c := by
        intro hx; subst hx; exact hc hlt
      have hcr : c' ∈ rest := by
        rcases List.mem_cons.mp hc' with h0 | h0
        · exact absurd h0 hcc
        · exact h0
      obtain ⟨out0, hout0⟩ := matureRecords_ok_of_le c
        ((getA s.depositRecords c).getD []) s tls [] (Nat.le_of_not_lt hc)
      obtain ⟨s1, tls1, upd⟩ := out0
      simp only [matureContracts, hout0]
      apply ih
      refine ⟨c', hcr, ?_⟩
      obtain ⟨e1, e2, e3, e4, e5, e6⟩ := matureRecords_effects _ _ _ _ _ _ hout0
      obtain ⟨f1, f2, f3, f4, f5, f6, f7, f8, f9, f10, f11⟩ :=
        matureRecords_frame _ _ _ _ _ _ hout0
      have hsk := (e6 c' hcc).2
      dsimp only at hsk f3
      have hrw : pendingOf
          ({ s1 with depositRecords := setA s1.depositRecords c upd } : State) c'
            = pendingOf s c' := by
        unfold pendingOf recsOf
        dsimp only
        rw [f3, getA_setA_ne _ _ (fun hx => hcc hx.symm)]
      rw [hrw]
      dsimp only
      rw [hsk]
      exact hlt

theorem matureRecords_nopending (c : String) (recs : List DepositRecord) :
    ∀ (s : State) (tls : Nat) (acc : List DepositRecord),
    (∀ r ∈ recs, r.status ≠ "pending") →
    matureRecords c s tls acc recs = .ok (s, tls, acc ++ recs) := by
  induction recs with
  | nil => intro s tls acc _; simp [matureRecords]
  | cons r rest ih =>
    intro s tls acc h
    have hp : r.status ≠ "pending" := h r (by simp)
    simp only [matureRecords, hp, if_false]
    rw [ih s tls (acc ++ [r]) (fun r' hr' => h r' (by simp [hr']))]
    simp

theorem matureContracts_nopending (l : List String) :
    ∀ (s : State) (tls : Nat),
    (∀ c ∈ l, (∃ recs, getA s.depositRecords c = some recs) ∧
      (∀ r ∈ recsOf s c, r.status ≠ "pending")) →
    matureContracts s tls l = .ok (s, tls) := by
  induction l with
  | nil => intro s tls _; simp [matureContracts]
  | cons c rest ih =>
    intro s tls h
    obtain ⟨⟨recs, hrecs⟩, hnp⟩ := h c (by simp)
    have hget : (getA s.depositRecords c).getD [] = recsOf s c := rfl
    have hm := matureRecords_nopending c ((getA s.depositRecords c).getD [])
      s tls [] (by rw [hget]; exact hnp)
    simp only [matureContracts, hm, List.nil_append]
    have hsame : setA s.depositRecords c ((getA s.depositRecords c).getD [])
        = s.depositRecords := by
      rw [hrecs]
      exact setA_same hrecs
    rw [hsame]
    exact ih s tls (fun c' hc' => h c' (by simp [hc']))

theorem completeRec_not_pending (r : DepositRecord) :
    (completeRec r).status ≠ "pending" := by
  unfold completeRec
  split_ifs with h
  · simp
  · exact h

/-- Claim C1: maturation postcondition — for every metadata account, each
deposit record pending at the start of the task is set to completed, its
amount is added to the account's completed stake and to the global total
liquid stake, and is subtracted from the account's provisional stake with
checked subtraction; if any account's provisional stake cannot cover its
pending total the whole call fails with the arithmetic-overflow error;
completed records are untouched, and rerunning with nothing pending
returns the state unchanged. -/
theorem c1_maturation_spec (s : State) (hnd : (mkeys s).Nodup) :
    (∀ s', get_total_liquid_stake s = .ok s' →
      s'.totalLiquidStake = s.totalLiquidStake + sumPendingOver s (mkeys s) ∧
      (∀ c ∈ mkeys s,
        getA s'.depositRecords c = some ((recsOf s c).map completeRec) ∧
        (getA s'.completedStakes c).getD 0 =
          (getA s.completedStakes c).getD 0 + pendingOf s c ∧
        pendingOf s c ≤ (getA s.contractStakes c).getD 0 ∧
        (getA s'.contractStakes c).getD 0 =
          (getA s.contractStakes c).getD 0 - pendingOf s c) ∧
      get_total_liquid_stake s' = .ok s') ∧
    ((∃ c ∈ mkeys s, (getA s.contractStakes c).getD 0 < pendingOf s c) →
      get_total_liquid_stake s = .error .stdOverflow) := by
  constructor
  · intro s' h
    unfold get_total_liquid_stake at h
    cases hmc : matureContracts s s.totalLiquidStake (mkeys s) with
    | error e => rw [hmc] at h; simp at h
    | ok out =>
      obtain ⟨s1, tls⟩ := out
      rw [hmc] at h
      simp only [Except.ok.injEq] at h
      obtain ⟨hA, hB, hC⟩ := matureContracts_effects (mkeys s) s _ _ hnd hmc
      obtain ⟨f1, f2, f3, f4, f5, f6, f7, f8, f9, f10⟩ :=
        matureContracts_frame (mkeys s) s _ _ hmc
      dsimp only at hA hB hC f1 f2 f3 f4 f5 f6 f7 f8 f9 f10
      subst h
      refine ⟨by simpa using hC, ?_, ?_⟩
      · intro c hc
        obtain ⟨b1, b2, b3, b4⟩ := hB c hc
        refine ⟨b1, b2, b4, ?_⟩
        dsimp only
        omega
      · have hmk : mkeys ({ s1 with totalLiquidStake := tls } : State) = mkeys s := by
          unfold mkeys
          dsimp only
          rw [f7]
        have hnop := matureContracts_nopending
          (mkeys ({ s1 with totalLiquidStake := tls } : State))
          ({ s1 with totalLiquidStake := tls } : State) tls
          (by
            intro c hc
            rw [hmk] at hc
            obtain ⟨b1, b2, b3, b4⟩ := hB c hc
            constructor
            · exact ⟨_, b1⟩
            · intro r hr
              unfold recsOf at hr
              dsimp only at hr
              rw [b1] at hr
              simp only [Option.getD_some, List.mem_map] at hr
              obtain ⟨r0, _, hr0⟩ := hr
              rw [← hr0]
              exact completeRec_not_pending r0)
        unfold get_total_liquid_stake
        rw [hnop]
  · intro hex
    unfold get_total_liquid_stake
    rw [matureContracts_err (mkeys s) s s.totalLiquidStake hex]

/-! ### Worked example states used by witnesses and counterexamples -/

/-- Witness for C1 at `exPend`: the hypotheses hold and the matured total
equals the old total plus the pending sum. -/
theorem c1_maturation_spec_witness :
    (mkeys exPend).Nodup ∧
    get_total_liquid_stake exPend = .ok exMat ∧
    exMat.totalLiquidStake =
      exPend.totalLiquidStake + sumPendingOver exPend (mkeys exPend) :=
  ⟨by decide, by rfl,
    (((c1_maturation_spec exPend (by decide)).1 exMat (by rfl)).1)⟩

/-! ### Reward-to-deposit task: per-account analysis -/

theorem processReward_untouched (rm : List (String × Nat)) (now height : Nat)
    (t : State) (c k : String) (hk : k ≠ c) :
    getA (processRewardContract rm now height t c).depositRecords k =
      getA t.depositRecords k ∧
    getA (processRewardContract rm now height t c).contractStakes k =
      getA t.contractStakes k ∧
    getA (processRewardContract rm now height t c).contractRewards k =
      getA t.contractRewards k := by
  unfold processRewardContract
  split
  · simp
  · dsimp only
    split_ifs <;>
      simp [add_contract_stake, getA_setA_ne _ _ (fun hx => hk hx.symm)]

theorem foldReward_untouched (rm : List (String × Nat)) (now height : Nat)
    (l : List String) :
    ∀ (t : State) (c : String), c ∉ l →
    getA ((l.foldl (processRewardContract rm now height) t).depositRecords) c =
      getA t.depositRecords c ∧
    getA ((l.foldl (processRewardContract rm now height) t).contractStakes) c =
      getA t.contractStakes c ∧
    getA ((l.foldl (processRewardContract rm now height) t).contractRewards) c =
      getA t.contractRewards c := by
  induction l with
  | nil => intro t c _; exact ⟨rfl, rfl, rfl⟩
  | cons c0 rest ih =>
    intro t c hc
    have hne : c ≠ c0 := fun hx => hc (by simp [hx])
    have hrest : c ∉ rest := fun hx => hc (by simp [hx])
    obtain ⟨p1, p2, p3⟩ := processReward_untouched rm now height t c0 c hne
    obtain ⟨q1, q2, q3⟩ := ih (processRewardContract rm now height t c0) c hrest
    exact ⟨q1.trans p1, q2.trans p2, q3.trans p3⟩

theorem if_max_eq_min (raw maxr : Nat) :
    (if maxr < raw then maxr else raw) = min raw maxr := by
  rw [Nat.min_def]
  split_ifs <;> omega

theorem processReward_self (rm : List (String × Nat)) (now height : Nat)
    (t : State) (c : String) (meta : ContractMetadata)
    (hmeta : getA t.contractMetadata c = some meta) :
    (min ((getA rm c).getD 0) meta.maximum_reward_amount <
        meta.minimum_reward_amount →
      processRewardContract rm now height t c = t) ∧
    (meta.minimum_reward_amount ≤
        min ((getA rm c).getD 0) meta.maximum_reward_amount →
      getA (processRewardContract rm now height t c).depositRecords c =
        some ((getA t.depositRecords c).getD [] ++
          [{ id := t.nextDepositRecordId + 1, contract_address := c,
             amount := min ((getA rm c).getD 0) meta.maximum_reward_amount,
             status := "pending", timestamp := now, block_height := height }]) ∧
      (getA (processRewardContract rm now height t c).contractStakes c).getD 0 =
        (getA t.contractStakes c).getD 0 +
          min ((getA rm c).getD 0) meta.maximum_reward_amount ∧
      getA (processRewardContract rm now height t c).contractRewards c =
        some 0) := by
  unfold processRewardContract
  rw [hmeta]
  dsimp only
  rw [if_max_eq_min]
  constructor
  · intro hlt
    rw [if_neg (by omega)]
  · intro hge
    rw [if_pos hge]
    refine ⟨?_, ?_, ?_⟩
    · simp [add_contract_stake, getA_setA_self]
    · simp [add_contract_stake, getA_setA_self]
    · simp [add_contract_stake, getA_setA_self]

theorem getA_mem_of_some {α : Type} {m : List (String × α)} {k : String} {v : α}
    (h : getA m k = some v) : k ∈ m.map Prod.fst := by
  by_contra hmem
  rw [← getA_eq_none_iff m k] at hmem
  rw [hmem] at h
  exact Option.noConfusion h

theorem keys_filter_subset {α : Type} (p : String × α → Bool)
    (m : List (String × α)) :
    ((m.filter p).map Prod.fst) ⊆ m.map Prod.fst :=
  List.Sublist.subset (List.Sublist.map Prod.fst (List.filter_sublist m))

theorem getA_filter_ne_zero (m : List (String × Nat))
    (hnd : (m.map Prod.fst).Nodup) (k : String) :
    (getA (m.filter (fun p => p.2 ≠ 0)) k).getD 0 = (getA m k).getD 0 := by
  induction m with
  | nil => simp [getA]
  | cons p rest ih =>
    obtain ⟨k', v⟩ := p
    simp only [List.map_cons, List.nodup_cons] at hnd
    obtain ⟨hk', hrest⟩ := hnd
    by_cases hkk : k' = k
    · subst hkk
      by_cases hv : v = 0
      · subst hv
        have hdrop : ((k', (0 : Nat)) :: rest).filter (fun p => p.2 ≠ 0) =
            rest.filter (fun p => p.2 ≠ 0) := by
          simp [List.filter_cons]
        rw [hdrop]
        have hnone : getA (rest.filter (fun p => p.2 ≠ 0)) k' = none := by
          rw [getA_eq_none_iff]
          intro hmem
          exact hk' (keys_filter_subset _ rest hmem)
        rw [hnone]
        simp [getA]
      · have hkeep : ((k', v) :: rest).filter (fun p => p.2 ≠ 0) =
            (k', v) :: rest.filter (fun p => p.2 ≠ 0) := by
          simp [List.filter_cons, hv]
        rw [hkeep]
        simp [getA]
    · have hstep : getA (((k', v) :: rest).filter (fun p => p.2 ≠ 0)) k =
          getA (rest.filter (fun p => p.2 ≠ 0)) k := by
        by_cases hv : v = 0
        · subst hv; simp [List.filter_cons]
        · simp [List.filter_cons, hv, getA, hkk]
      rw [hstep, ih hrest]
      simp [getA, hkk]

/-- Claim C2: reward-to-deposit clamping — for a metadata account the task
computes `amount = min raw max` from the reward balance (default zero); if
`amount` is below the minimum it writes nothing for that account, otherwise
it appends exactly one pending deposit record of that amount, adds the
amount to the provisional stake, and resets the reward balance to zero. -/
theorem c2_reward_clamping (s : State) (now height : Nat)
    (hndm : (mkeys s).Nodup)
    (hndr : (s.contractRewards.map Prod.fst).Nodup)
    (c : String) (meta : ContractMetadata)
    (hmeta : getA s.contractMetadata c = some meta) :
    (min ((getA s.contractRewards c).getD 0) meta.maximum_reward_amount <
        meta.minimum_reward_amount →
      getA (handle_liquid_staking_dapp_rewards s now height).depositRecords c =
        getA s.depositRecords c ∧
      getA (handle_liquid_staking_dapp_rewards s now height).contractRewards c =
        getA s.contractRewards c ∧
      getA (handle_liquid_staking_dapp_rewards s now height).contractStakes c =
        getA s.contractStakes c) ∧
    (meta.minimum_reward_amount ≤
        min ((getA s.contractRewards c).getD 0) meta.maximum_reward_amount →
      ∃ rid,
      getA (handle_liquid_staking_dapp_rewards s now height).depositRecords c =
        some ((getA s.depositRecords c).getD [] ++
          [{ id := rid, contract_address := c,
             amount := min ((getA s.contractRewards c).getD 0)
               meta.maximum_reward_amount,
             status := "pending", timestamp := now, block_height := height }]) ∧
      (getA (handle_liquid_staking_dapp_rewards s now height).contractStakes
          c).getD 0 =
        (getA s.contractStakes c).getD 0 +
          min ((getA s.contractRewards c).getD 0) meta.maximum_reward_amount ∧
      getA (handle_liquid_staking_dapp_rewards s now height).contractRewards c =
        some 0) := by
  have hmem : c ∈ mkeys s := getA_mem_of_some hmeta
  obtain ⟨l1, l2, hl⟩ := List.append_of_mem hmem
  have hnd2 := hndm
  rw [hl] at hnd2
  rw [List.nodup_append] at hnd2
  obtain ⟨hnd_l1, hnd_cl2, hdisj⟩ := hnd2
  have hc_l1 : c ∉ l1 := fun hx => hdisj hx (by simp)
  have hc_l2 : c ∉ l2 := (List.nodup_cons.mp hnd_cl2).1
  unfold handle_liquid_staking_dapp_rewards
  rw [hl, List.foldl_append, List.foldl_cons]
  have hraw : (getA (get_cumulative_reward_amount s) c).getD 0 =
      (getA s.contractRewards c).getD 0 :=
    getA_filter_ne_zero s.contractRewards hndr c
  obtain ⟨u1, u2, u3⟩ := foldReward_untouched (get_cumulative_reward_amount s)
    now height l1 s c hc_l1
  have hmetaf := (foldReward_frame (get_cumulative_reward_amount s) now height
    l1 s).2.2.2.2.2.2.1
  have hmeta1 : getA (l1.foldl (processRewardContract
      (get_cumulative_reward_amount s) now height) s).contractMetadata c =
      some meta := by rw [hmetaf]; exact hmeta
  obtain ⟨hskip, hcreate⟩ := processReward_self
    (get_cumulative_reward_amount s) now height _ c meta hmeta1
  constructor
  · intro hlt
    rw [hraw] at hskip
    rw [hskip hlt]
    obtain ⟨w1, w2, w3⟩ := foldReward_untouched (get_cumulative_reward_amount s)
      now height l2 _ c hc_l2
    exact ⟨w1.trans u1, w3.trans u3, w2.trans u2⟩
  · intro hge
    rw [hraw] at hcreate
    obtain ⟨d1, d2, d3⟩ := hcreate hge
    obtain ⟨w1, w2, w3⟩ := foldReward_untouched (get_cumulative_reward_amount s)
      now height l2 _ c hc_l2
    refine ⟨(l1.foldl (processRewardContract (get_cumulative_reward_amount s)
      now height) s).nextDepositRecordId + 1, ?_, ?_, ?_⟩
    · rw [w1, d1, u1]
    · rw [w2, d2, u2]
    · rw [w3, d3]

/-- Witness for C2: with min 50 and max 1000, a balance of 1500 adds
exactly 1000 of provisional stake, and a balance of 30 creates no record
and leaves the balance untouched. -/
theorem c2_reward_clamping_witness :
    ((mkeys exRwd1500).Nodup ∧
      (exRwd1500.contractRewards.map Prod.fst).Nodup ∧
      getA exRwd1500.contractMetadata "c1" =
        some ⟨"r1", "l1", 50, 1000, "rd1"⟩) ∧
    (getA (handle_liquid_staking_dapp_rewards exRwd1500 1 1).contractStakes
        "c1").getD 0 =
      (getA exRwd1500.contractStakes "c1").getD 0 + 1000 ∧
    getA (handle_liquid_staking_dapp_rewards exRwd30 1 1).depositRecords "c1" =
      getA exRwd30.depositRecords "c1" ∧
    getA (handle_liquid_staking_dapp_rewards exRwd30 1 1).contractRewards "c1" =
      getA exRwd30.contractRewards "c1" := by
  refine ⟨⟨by decide, by decide, by decide⟩, ?_, ?_, ?_⟩
  · obtain ⟨rid, h1, h2, h3⟩ := (c2_reward_clamping exRwd1500 1 1 (by decide)
      (by decide) "c1" ⟨"r1", "l1", 50, 1000, "rd1"⟩ (by decide)).2 (by decide)
    exact h2
  · exact ((c2_reward_clamping exRwd30 1 1 (by decide) (by decide) "c1"
      ⟨"r1", "l1", 50, 1000, "rd1"⟩ (by decide)).1 (by decide)).1
  · exact ((c2_reward_clamping exRwd30 1 1 (by decide) (by decide) "c1"
      ⟨"r1", "l1", 50, 1000, "rd1"⟩ (by decide)).1 (by decide)).2.1

/-! ### Stake-ratio distribution -/

theorem foldStakeRatios_untouched (s0 : State) (total : Nat) (l : List String) :
    ∀ (t : State) (c : String), c ∉ l →
    getA (l.foldl (writeStakeRatio s0 total) t).stakeRatios c =
      getA t.stakeRatios c := by
  induction l with
  | nil => intro t c _; rfl
  | cons c0 rest ih =>
    intro t c hc
    have hne : c0 ≠ c := fun hx => hc (by simp [hx])
    have hrest : c ∉ rest := fun hx => hc (by simp [hx])
    rw [List.foldl_cons, ih _ c hrest]
    exact getA_setA_ne _ _ hne

theorem foldStakeRatios_mem (s0 : State) (total : Nat) (l : List String) :
    ∀ (t : State) (c : String), c ∈ l →
    getA (l.foldl (writeStakeRatio s0 total) t).stakeRatios c =
      some (decimalFromRatio ((getA s0.completedStakes c).getD 0) total) := by
  induction l with
  | nil => intro t c hc; simp at hc
  | cons c0 rest ih =>
    intro t c hc
    by_cases hcr : c ∈ rest
    · rw [List.foldl_cons, ih _ c hcr]
    · have hc0 : c = c0 := by
        rcases List.mem_cons.mp hc with h0 | h0
        · exact h0
        · exact absurd h0 hcr
      subst hc0
      rw [List.foldl_cons, foldStakeRatios_untouched s0 total rest _ c hcr]
      exact getA_setA_self _ _ _

theorem foldStakeRatios_frame (s0 : State) (total : Nat) (l : List String) :
    ∀ (t : State),
    l.foldl (writeStakeRatio s0 total) t =
      { t with stakeRatios := (l.foldl (writeStakeRatio s0 total) t).stakeRatios } := by
  induction l with
  | nil => intro t; rfl
  | cons c0 rest ih =>
    intro t
    rw [List.foldl_cons]
    exact ih _

/-- Claim C3: `distribute_liquidity` — always succeeds for the owner with
no time gate; when the accumulated completed stake is zero it writes
nothing; otherwise it persists the truncated fixed-point ratio
`CompletedStake(c) / total` for every considered account and touches no
other state. -/
theorem c3_distribute_liquidity (s : State) (sender : String)
    (hsender : sender = s.config.owner) :
    execute s (.DistributeLiquidity sender) = .ok (distribute_liquidity s) ∧
    (sumCompletedOver s (mkeys s) = 0 → distribute_liquidity s = s) ∧
    (sumCompletedOver s (mkeys s) ≠ 0 →
      (∀ c ∈ mkeys s,
        getA (distribute_liquidity s).stakeRatios c =
          some (decimalFromRatio ((getA s.completedStakes c).getD 0)
            (sumCompletedOver s (mkeys s)))) ∧
      (∀ c, c ∉ mkeys s →
        getA (distribute_liquidity s).stakeRatios c = getA s.stakeRatios c) ∧
      distribute_liquidity s =
        { s with stakeRatios := (distribute_liquidity s).stakeRatios }) := by
  have hdl0 : ∀ h0 : sumCompletedOver s (mkeys s) ≠ 0,
      distribute_liquidity s =
        (mkeys s).foldl (writeStakeRatio s (sumCompletedOver s (mkeys s))) s := by
    intro h0
    unfold distribute_liquidity
    rw [if_neg h0]
  refine ⟨?_, ?_, ?_⟩
  · simp [execute, hsender]
  · intro h0
    simp [distribute_liquidity, h0]
  · intro h0
    refine ⟨?_, ?_, ?_⟩
    · intro c hc
      rw [hdl0 h0]
      exact foldStakeRatios_mem s _ (mkeys s) s c hc
    · intro c hc
      rw [hdl0 h0]
      exact foldStakeRatios_untouched s _ (mkeys s) s c hc
    · rw [hdl0 h0]
      exact foldStakeRatios_frame s _ (mkeys s) s

/-- Witness for C3 at `exMat` (one account with completed stake 100): the
persisted ratio is the truncated quotient 100/100. -/
theorem c3_distribute_liquidity_witness :
    ("admin" = exMat.config.owner) ∧
    sumCompletedOver exMat (mkeys exMat) ≠ 0 ∧
    getA (distribute_liquidity exMat).stakeRatios "c1" =
      some (decimalFromRatio ((getA exMat.completedStakes "c1").getD 0)
        (sumCompletedOver exMat (mkeys exMat))) :=
  ⟨by decide, by decide,
    ((c3_distribute_liquidity exMat "admin" (by decide)).2.2 (by decide)).1
      "c1" (by decide)⟩

/-! ### Redemption-token distribution -/

theorem totalRedeemTokens_eq (s : State) :
    totalRedeemTokens s = sumRedemptionOver s (mkeys s) := by
  unfold totalRedeemTokens redemptionEntries
  generalize mkeys s = l
  induction l with
  | nil => rfl
  | cons c rest ih =>
    rw [List.filterMap_cons]
    by_cases h : (getA s.redemptionRecords c).getD 0 = 0
    · rw [if_pos h]
      dsimp only
      rw [ih]
      simp only [sumRedemptionOver]
      omega
    · rw [if_neg h]
      dsimp only
      simp only [sumVals, sumRedemptionOver]
      rw [ih]

theorem redemptionEntries_keys_sublist (s : State) :
    ((redemptionEntries s).map Prod.fst).Sublist (mkeys s) := by
  unfold redemptionEntries
  generalize mkeys s = l
  induction l with
  | nil => simp
  | cons c rest ih =>
    rw [List.filterMap_cons]
    by_cases h : (getA s.redemptionRecords c).getD 0 = 0
    · rw [if_pos h]
      dsimp only
      exact ih.cons c
    · rw [if_neg h]
      dsimp only
      simp only [List.map_cons]
      exact ih.cons₂ c

theorem mem_redemptionEntries (s : State) (c : String) :
    (c, (getA s.redemptionRecords c).getD 0) ∈ redemptionEntries s ↔
      c ∈ mkeys s ∧ (getA s.redemptionRecords c).getD 0 ≠ 0 := by
  unfold redemptionEntries
  rw [List.mem_filterMap]
  constructor
  · rintro ⟨a, ha, hfa⟩
    by_cases h : (getA s.redemptionRecords a).getD 0 = 0
    · rw [if_pos h] at hfa
      exact Option.noConfusion hfa
    · rw [if_neg h] at hfa
      simp only [Option.some.injEq, Prod.mk.injEq] at hfa
      obtain ⟨hac, hbal⟩ := hfa
      subst hac
      exact ⟨ha, h⟩
  · rintro ⟨hmem, hne⟩
    exact ⟨c, hmem, by simp [if_neg hne]⟩

theorem keys_mem_redemptionEntries (s : State) (c : String)
    (h : c ∈ (redemptionEntries s).map Prod.fst) :
    c ∈ mkeys s ∧ (getA s.redemptionRecords c).getD 0 ≠ 0 := by
  rcases List.mem_map.mp h with ⟨p, hp, hfst⟩
  unfold redemptionEntries at hp
  rcases List.mem_filterMap.mp hp with ⟨a, ha, hfa⟩
  by_cases hz : (getA s.redemptionRecords a).getD 0 = 0
  · rw [if_pos hz] at hfa
    exact Option.noConfusion hfa
  · rw [if_neg hz] at hfa
    simp only [Option.some.injEq] at hfa
    subst hfa
    dsimp only at hfst
    subst hfst
    exact ⟨ha, hz⟩

theorem foldRedeem_untouched (total : Nat) (entries : List (String × Nat)) :
    ∀ (t : State) (c : String), c ∉ entries.map Prod.fst →
    getA (entries.foldl (writeRedeemRatio total) t).redeemTokenRatios c =
      getA t.redeemTokenRatios c ∧
    getA (entries.foldl (writeRedeemRatio total) t).redemptionRecords c =
      getA t.redemptionRecords c := by
  induction entries with
  | nil => intro t c _; exact ⟨rfl, rfl⟩
  | cons p rest ih =>
    intro t c hc
    have hne : p.1 ≠ c := fun hx => hc (by simp [← hx])
    have hrest : c ∉ rest.map Prod.fst := fun hx => hc (by simp [hx])
    rw [List.foldl_cons]
    obtain ⟨i1, i2⟩ := ih (writeRedeemRatio total t p) c hrest
    rw [i1, i2]
    exact ⟨getA_setA_ne _ _ hne, getA_setA_ne _ _ hne⟩

theorem foldRedeem_mem (total : Nat) (entries : List (String × Nat)) :
    ∀ (t : State) (c : String) (a : Nat),
    (entries.map Prod.fst).Nodup → (c, a) ∈ entries →
    getA (entries.foldl (writeRedeemRatio total) t).redeemTokenRatios c =
      some (decimalFromRatio a total) ∧
    getA (entries.foldl (writeRedeemRatio total) t).redemptionRecords c =
      some 0 := by
  induction entries with
  | nil => intro t c a _ hc; simp at hc
  | cons p rest ih =>
    intro t c a hnd hc
    simp only [List.map_cons, List.nodup_cons] at hnd
    obtain ⟨hp, hndr⟩ := hnd
    rcases List.mem_cons.mp hc with h0 | h0
    · subst h0
      have hcr : c ∉ rest.map Prod.fst := hp
      rw [List.foldl_cons]
      obtain ⟨u1, u2⟩ := foldRedeem_untouched total rest
        (writeRedeemRatio total t (c, a)) c hcr
      rw [u1, u2]
      exact ⟨getA_setA_self _ _ _, getA_setA_self _ _ _⟩
    · rw [List.foldl_cons]
      exact ih _ c a hndr h0

theorem foldRedeem_frame (total : Nat) (entries : List (String × Nat)) :
    ∀ (t : State),
    entries.foldl (writeRedeemRatio total) t =
      { t with
          redeemTokenRatios :=
            (entries.foldl (writeRedeemRatio total) t).redeemTokenRatios,
          redemptionRecords :=
            (entries.foldl (writeRedeemRatio total) t).redemptionRecords } := by
  induction entries with
  | nil => intro t; rfl
  | cons p rest ih =>
    intro t
    rw [List.foldl_cons]
    exact ih _

/-- Claim C4: `distribute_redeem_tokens` fails with `NoRedemptionRecords`
(changing nothing — a failed call rolls back) exactly when the redemption
balances of all known accounts sum to zero; on success it persists the
truncated ratio `balance / total` for every account with a non-zero
balance, resets those balances to zero, and touches nothing else. -/
theorem c4_distribute_redeem_tokens (s : State) (sender : String)
    (hsender : sender = s.config.owner) (hnd : (mkeys s).Nodup) :
    (execute s (.DistributeRedeemTokens sender) =
        .error .noRedemptionRecords ↔
      sumRedemptionOver s (mkeys s) = 0) ∧
    (sumRedemptionOver s (mkeys s) ≠ 0 →
      execute s (.DistributeRedeemTokens sender) =
        .ok ((redemptionEntries s).foldl
          (writeRedeemRatio (totalRedeemTokens s)) s)) ∧
    (∀ s', execute s (.DistributeRedeemTokens sender) = .ok s' →
      (∀ c ∈ mkeys s, (getA s.redemptionRecords c).getD 0 ≠ 0 →
        getA s'.redeemTokenRatios c =
          some (decimalFromRatio ((getA s.redemptionRecords c).getD 0)
            (sumRedemptionOver s (mkeys s))) ∧
        getA s'.redemptionRecords c = some 0) ∧
      (∀ c, (getA s.redemptionRecords c).getD 0 = 0 ∨ c ∉ mkeys s →
        getA s'.redeemTokenRatios c = getA s.redeemTokenRatios c ∧
        getA s'.redemptionRecords c = getA s.redemptionRecords c) ∧
      s' = { s with
              redeemTokenRatios := s'.redeemTokenRatios,
              redemptionRecords := s'.redemptionRecords }) := by
  have hexec : execute s (.DistributeRedeemTokens sender) =
      distribute_redeem_tokens_core s := by
    simp [execute, hsender]
  have htot := totalRedeemTokens_eq s
  refine ⟨?_, ?_, ?_⟩
  · rw [hexec]
    unfold distribute_redeem_tokens_core
    by_cases h0 : totalRedeemTokens s = 0
    · rw [if_pos h0]
      simp [← htot, h0]
    · rw [if_neg h0]
      constructor
      · intro hx; exact absurd hx (by simp)
      · intro hx; rw [htot] at h0; exact absurd hx h0
  · intro h0
    rw [hexec]
    unfold distribute_redeem_tokens_core
    rw [if_neg (by rw [htot]; exact h0)]
  · intro s' h
    rw [hexec] at h
    unfold distribute_redeem_tokens_core at h
    by_cases h0 : totalRedeemTokens s = 0
    · rw [if_pos h0] at h
      exact absurd h (by simp)
    · rw [if_neg h0] at h
      simp only [Except.ok.injEq] at h
      subst h
      have hndk : ((redemptionEntries s).map Prod.fst).Nodup :=
        (redemptionEntries_keys_sublist s).nodup hnd
      refine ⟨?_, ?_, ?_⟩
      · intro c hc hb
        have hmem := (mem_redemptionEntries s c).mpr ⟨hc, hb⟩
        obtain ⟨m1, m2⟩ := foldRedeem_mem (totalRedeemTokens s)
          (redemptionEntries s) s c _ hndk hmem
        rw [m1, m2, htot]
        exact ⟨rfl, rfl⟩
      · intro c hc
        apply foldRedeem_untouched
        intro hmem
        obtain ⟨hk, hb⟩ := keys_mem_redemptionEntries s c hmem
        rcases hc with hz | hnm
        · exact hb hz
        · exact hnm hk
      · exact foldRedeem_frame _ _ s

/-- Witness for C4: balances 200/800 give `c1` the truncated ratio
200/1000 and reset its balance; with all balances zero the call fails with
`NoRedemptionRecords`. -/
theorem c4_distribute_redeem_tokens_witness :
    ("admin" = exRedeem.config.owner ∧ (mkeys exRedeem).Nodup) ∧
    getA exRedeemDist.redeemTokenRatios "c1" =
      some (decimalFromRatio 200 1000) ∧
    getA exRedeemDist.redemptionRecords "c1" = some 0 ∧
    execute exMetaB (.DistributeRedeemTokens "admin") =
      .error .noRedemptionRecords := by
  refine ⟨⟨by decide, by decide⟩, ?_, ?_, ?_⟩
  · exact (((c4_distribute_redeem_tokens exRedeem "admin" (by decide)
      (by decide)).2.2 exRedeemDist (by rfl)).1 "c1" (by decide) (by decide)).1
  · exact (((c4_distribute_redeem_tokens exRedeem "admin" (by decide)
      (by decide)).2.2 exRedeemDist (by rfl)).1 "c1" (by decide) (by decide)).2
  · exact (c4_distribute_redeem_tokens exMetaB "admin" (by decide)
      (by decide)).1.mpr (by decide)

/-! ### Reward-task repetition -/

/-- Counterexample to C9 as stated: with metadata minimum 0, the
reward-to-deposit task creates a fresh (zero-amount) pending record on
every run, so a second run without new reward accrual still produces a
deposit record. -/
theorem c9_counterexample :
    ¬ (∀ (s : State) (now height now2 height2 : Nat),
        recordCount (handle_liquid_staking_dapp_rewards
          (handle_liquid_staking_dapp_rewards s now height)
            now2 height2).depositRecords =
        recordCount (handle_liquid_staking_dapp_rewards s
          now height).depositRecords) := by
  intro h
  exact absurd (h exMeta0 0 0 0 0) (by decide)

theorem keys_setA_nodup {α : Type} (m : List (String × α)) (k : String)
    (v : α) (h : (m.map Prod.fst).Nodup) :
    ((setA m k v).map Prod.fst).Nodup := by
  by_cases hk : k ∈ m.map Prod.fst
  · rw [keys_setA_of_mem v hk]
    exact h
  · rw [keys_setA_of_not_mem v hk]
    simp [List.nodup_append, h, hk]

theorem processReward_rewards_nodup (rm : List (String × Nat))
    (now height : Nat) (t : State) (c : String)
    (h : (t.contractRewards.map Prod.fst).Nodup) :
    (((processRewardContract rm now height t c).contractRewards).map
      Prod.fst).Nodup := by
  unfold processRewardContract
  split
  · exact h
  · dsimp only
    split_ifs <;>
      first
        | exact h
        | simpa [add_contract_stake] using keys_setA_nodup t.contractRewards c 0 h

theorem foldReward_rewards_nodup (rm : List (String × Nat))
    (now height : Nat) (l : List String) :
    ∀ (t : State), (t.contractRewards.map Prod.fst).Nodup →
    (((l.foldl (processRewardContract rm now height) t).contractRewards).map
      Prod.fst).Nodup := by
  induction l with
  | nil => intro t h; exact h
  | cons c rest ih =>
    intro t h
    rw [List.foldl_cons]
    exact ih _ (processReward_rewards_nodup rm now height t c h)

theorem foldReward_skip_all (rm : List (String × Nat)) (now height : Nat)
    (l : List String) :
    ∀ (t : State),
    (∀ c ∈ l, ∀ meta, getA t.contractMetadata c = some meta →
      min ((getA rm c).getD 0) meta.maximum_reward_amount <
        meta.minimum_reward_amount) →
    l.foldl (processRewardContract rm now height) t = t := by
  induction l with
  | nil => intro t _; rfl
  | cons c rest ih =>
    intro t h
    have hstep : processRewardContract rm now height t c = t := by
      cases hmeta : getA t.contractMetadata c with
      | none => unfold processRewardContract; rw [hmeta]
      | some meta =>
        exact (processReward_self rm now height t c meta hmeta).1
          (h c (by simp) meta hmeta)
    rw [List.foldl_cons, hstep]
    exact ih t (fun c' hc' => h c' (by simp [hc']))

/-- Claim C9 (amended): when every metadata account has a positive minimum
reward amount, running the reward-to-deposit task twice without reward
accrual in between leaves the state of the first run untouched — the
second run produces no deposit records (the original claim fails for
metadata with minimum 0, which yields a zero-amount record every run). -/
theorem c9_reward_task_idempotent (s : State)
    (now height now2 height2 : Nat)
    (hndm : (mkeys s).Nodup)
    (hndr : (s.contractRewards.map Prod.fst).Nodup)
    (hmin : ∀ c meta, getA s.contractMetadata c = some meta →
      1 ≤ meta.minimum_reward_amount) :
    handle_liquid_staking_dapp_rewards
      (handle_liquid_staking_dapp_rewards s now height) now2 height2 =
    handle_liquid_staking_dapp_rewards s now height := by
  have hmetaf := (handleRewards_frame s now height).2.2.2.2.2.2.1
  have hndr' : (((handle_liquid_staking_dapp_rewards s now
      height).contractRewards).map Prod.fst).Nodup :=
    foldReward_rewards_nodup _ now height (mkeys s) s hndr
  show (mkeys (handle_liquid_staking_dapp_rewards s now height)).foldl
      (processRewardContract (get_cumulative_reward_amount
        (handle_liquid_staking_dapp_rewards s now height)) now2 height2)
      (handle_liquid_staking_dapp_rewards s now height) =
    handle_liquid_staking_dapp_rewards s now height
  apply foldReward_skip_all
  intro c hc meta hmeta
  rw [hmetaf] at hmeta
  have hcs : c ∈ mkeys s := by
    unfold mkeys at hc ⊢
    rw [hmetaf] at hc
    exact hc
  have hraw' : (getA (get_cumulative_reward_amount
      (handle_liquid_staking_dapp_rewards s now height)) c).getD 0 =
      (getA (handle_liquid_staking_dapp_rewards s
        now height).contractRewards c).getD 0 := by
    unfold get_cumulative_reward_amount
    exact getA_filter_ne_zero _ hndr' c
  rw [hraw']
  obtain ⟨hskip, hcreate⟩ :=
    c2_reward_clamping s now height hndm hndr c meta hmeta
  by_cases hlt : min ((getA s.contractRewards c).getD 0)
      meta.maximum_reward_amount < meta.minimum_reward_amount
  · obtain ⟨d1, d2, d3⟩ := hskip hlt
    rw [d2]
    exact hlt
  · obtain ⟨rid, d1, d2, d3⟩ := hcreate (by omega)
    rw [d3]
    have h0 : min ((some (0 : Nat)).getD 0) meta.maximum_reward_amount = 0 := by
      simp
    rw [h0]
    exact hmin c meta hmeta

/-- Witness for the amended C9 at `exRwd` (minimum reward 50 > 0). -/
theorem c9_reward_task_idempotent_witness :
    ((mkeys exRwd).Nodup ∧ (exRwd.contractRewards.map Prod.fst).Nodup) ∧
    handle_liquid_staking_dapp_rewards
      (handle_liquid_staking_dapp_rewards exRwd 1 1) 2 2 =
    handle_liquid_staking_dapp_rewards exRwd 1 1 :=
  ⟨⟨by decide, by decide⟩,
    c9_reward_task_idempotent exRwd 1 1 2 2 (by decide) (by decide)
      (by
        intro c meta h
        have hl : exRwd.contractMetadata =
            [("c1", ⟨"r1", "l1", 50, 1000, "rd1"⟩)] := by decide
        rw [hl] at h
        simp only [getA] at h
        split_ifs at h with hc
        cases h
        decide)⟩

/-! ### The cron interval gate -/

theorem should_process_eq (s : State) (key : String) (interval now last : Nat)
    (h : getA s.lastProcessingTimes key = some last) :
    should_process_task s key interval now =
      .ok (decide (last + interval ≤ now)) := by
  unfold should_process_task
  rw [h]

theorem saveClock_getA_self (s : State) (key : String) (now : Nat) :
    getA (saveClock s key now).lastProcessingTimes key = some now :=
  getA_setA_self _ _ _

theorem saveClock_getA_ne (s : State) (key : String) (now : Nat)
    (key' : String) (h : key ≠ key') :
    getA (saveClock s key now).lastProcessingTimes key' =
      getA s.lastProcessingTimes key' :=
  getA_setA_ne _ _ h

theorem gtls_frame (s t : State) (h : get_total_liquid_stake s = .ok t) :
    t.config = s.config ∧
    t.lastProcessingTimes = s.lastProcessingTimes ∧
    t.stakeRatios = s.stakeRatios ∧
    t.redeemTokens = s.redeemTokens ∧
    t.redeemTokenRatios = s.redeemTokenRatios ∧
    t.contractMetadata = s.contractMetadata ∧
    t.contractRewards = s.contractRewards ∧
    t.nextDepositRecordId = s.nextDepositRecordId ∧
    t.redemptionRecords = s.redemptionRecords := by
  unfold get_total_liquid_stake at h
  cases hmc : matureContracts s s.totalLiquidStake (mkeys s) with
  | error e => rw [hmc] at h; simp at h
  | ok out =>
    obtain ⟨s1, tls⟩ := out
    rw [hmc] at h
    simp only [Except.ok.injEq] at h
    obtain ⟨f1, f2, f3, f4, f5, f6, f7, f8, f9, f10⟩ :=
      matureContracts_frame (mkeys s) s _ _ hmc
    subst h
    exact ⟨f1, f2, f4, f5, f6, f7, f8, f9, f10⟩

theorem cron_eq_spec (s : State) (now height l1 l2 l3 : Nat)
    (h1 : getA s.lastProcessingTimes
      LAST_LIQUID_STAKING_DAPP_REWARDS_TIME_KEY = some l1)
    (h2 : getA s.lastProcessingTimes
      LAST_ARCH_LIQUID_STAKE_INTERVAL_TIME_KEY = some l2)
    (h3 : getA s.lastProcessingTimes
      LAST_REDEMPTION_RATE_QUERY_TIME_KEY = some l3) :
    execute_cron_job s now height = cronJobSpec s now height l1 l2 l3 := by
  unfold execute_cron_job cronJobSpec
  rw [should_process_eq s _ _ now l1 h1]
  dsimp only
  simp only [decide_eq_true_eq]
  by_cases hd1 : l1 + s.config.liquid_staking_interval ≤ now
  · simp only [if_pos hd1]
    have e2 : getA (saveClock (handle_liquid_staking_dapp_rewards s now height)
        LAST_LIQUID_STAKING_DAPP_REWARDS_TIME_KEY now).lastProcessingTimes
        LAST_ARCH_LIQUID_STAKE_INTERVAL_TIME_KEY = some l2 := by
      rw [saveClock_getA_ne _ _ _ _ (by decide),
        (handleRewards_frame s now height).2.1]
      exact h2
    rw [should_process_eq _ _ _ now l2 e2]
    dsimp only
    simp only [decide_eq_true_eq]
    by_cases hd2 : l2 + s.config.arch_liquid_stake_interval ≤ now
    · simp only [if_pos hd2]
      unfold handle_arch_liquid_stake_interval
      cases hg : get_total_liquid_stake (saveClock
          (handle_liquid_staking_dapp_rewards s now height)
          LAST_LIQUID_STAKING_DAPP_REWARDS_TIME_KEY now) with
      | error e => rfl
      | ok t =>
        dsimp only
        have e3 : getA (saveClock t
            LAST_ARCH_LIQUID_STAKE_INTERVAL_TIME_KEY now).lastProcessingTimes
            LAST_REDEMPTION_RATE_QUERY_TIME_KEY = some l3 := by
          rw [saveClock_getA_ne _ _ _ _ (by decide), (gtls_frame _ _ hg).2.1,
            saveClock_getA_ne _ _ _ _ (by decide),
            (handleRewards_frame s now height).2.1]
          exact h3
        rw [should_process_eq _ _ _ now l3 e3]
        dsimp only
        simp only [decide_eq_true_eq]
        by_cases hd3 : l3 + s.config.redemption_rate_query_interval ≤ now
        · simp only [if_pos hd3]
          rfl
        · simp only [if_neg hd3]
    · simp only [if_neg hd2]
      have e3 : getA (saveClock (handle_liquid_staking_dapp_rewards s now height)
          LAST_LIQUID_STAKING_DAPP_REWARDS_TIME_KEY now).lastProcessingTimes
          LAST_REDEMPTION_RATE_QUERY_TIME_KEY = some l3 := by
        rw [saveClock_getA_ne _ _ _ _ (by decide),
          (handleRewards_frame s now height).2.1]
        exact h3
      rw [should_process_eq _ _ _ now l3 e3]
      dsimp only
      simp only [decide_eq_true_eq]
      by_cases hd3 : l3 + s.config.redemption_rate_query_interval ≤ now
      · simp only [if_pos hd3]
        rfl
      · simp only [if_neg hd3]
  · simp only [if_neg hd1]
    rw [should_process_eq _ _ _ now l2 h2]
    dsimp only
    simp only [decide_eq_true_eq]
    by_cases hd2 : l2 + s.config.arch_liquid_stake_interval ≤ now
    · simp only [if_pos hd2]
      unfold handle_arch_liquid_stake_interval
      cases hg : get_total_liquid_stake s with
      | error e => rfl
      | ok t =>
        dsimp only
        have e3 : getA (saveClock t
            LAST_ARCH_LIQUID_STAKE_INTERVAL_TIME_KEY now).lastProcessingTimes
            LAST_REDEMPTION_RATE_QUERY_TIME_KEY = some l3 := by
          rw [saveClock_getA_ne _ _ _ _ (by decide), (gtls_frame _ _ hg).2.1]
          exact h3
        rw [should_process_eq _ _ _ now l3 e3]
        dsimp only
        simp only [decide_eq_true_eq]
        by_cases hd3 : l3 + s.config.redemption_rate_query_interval ≤ now
        · simp only [if_pos hd3]
          rfl
        · simp only [if_neg hd3]
    · simp only [if_neg hd2]
      rw [should_process_eq _ _ _ now l3 h3]
      dsimp only
      simp only [decide_eq_true_eq]
      by_cases hd3 : l3 + s.config.redemption_rate_query_interval ≤ now
      · simp only [if_pos hd3]
        rfl
      · simp only [if_neg hd3]

theorem cronSpec_clocks (s : State) (now height l1 l2 l3 : Nat)
    (h1 : getA s.lastProcessingTimes
      LAST_LIQUID_STAKING_DAPP_REWARDS_TIME_KEY = some l1)
    (h2 : getA s.lastProcessingTimes
      LAST_ARCH_LIQUID_STAKE_INTERVAL_TIME_KEY = some l2)
    (h3 : getA s.lastProcessingTimes
      LAST_REDEMPTION_RATE_QUERY_TIME_KEY = some l3) :
    ∀ s', cronJobSpec s now height l1 l2 l3 = .ok s' →
    s'.config = s.config ∧
    getA s'.lastProcessingTimes LAST_LIQUID_STAKING_DAPP_REWARDS_TIME_KEY =
      some (if l1 + s.config.liquid_staking_interval ≤ now then now else l1) ∧
    getA s'.lastProcessingTimes LAST_ARCH_LIQUID_STAKE_INTERVAL_TIME_KEY =
      some (if l2 + s.config.arch_liquid_stake_interval ≤ now then now else l2) ∧
    getA s'.lastProcessingTimes LAST_REDEMPTION_RATE_QUERY_TIME_KEY =
      some (if l3 + s.config.redemption_rate_query_interval ≤ now then now
        else l3) := by
  intro s' h
  unfold cronJobSpec at h
  dsimp only at h
  generalize hS1 : (if l1 + s.config.liquid_staking_interval ≤ now then
      saveClock (handle_liquid_staking_dapp_rewards s now height)
        LAST_LIQUID_STAKING_DAPP_REWARDS_TIME_KEY now
    else s) = S1 at h
  have cfgS1 : S1.config = s.config := by
    rw [← hS1]
    by_cases hd1 : l1 + s.config.liquid_staking_interval ≤ now
    · rw [if_pos hd1]
      exact (handleRewards_frame s now height).1
    · rw [if_neg hd1]
  have c1S1 : getA S1.lastProcessingTimes
      LAST_LIQUID_STAKING_DAPP_REWARDS_TIME_KEY =
      some (if l1 + s.config.liquid_staking_interval ≤ now then now else l1) := by
    rw [← hS1]
    by_cases hd1 : l1 + s.config.liquid_staking_interval ≤ now
    · rw [if_pos hd1, if_pos hd1]
      exact saveClock_getA_self _ _ _
    · rw [if_neg hd1, if_neg hd1]
      exact h1
  have c2S1 : getA S1.lastProcessingTimes
      LAST_ARCH_LIQUID_STAKE_INTERVAL_TIME_KEY = some l2 := by
    rw [← hS1]
    by_cases hd1 : l1 + s.config.liquid_staking_interval ≤ now
    · rw [if_pos hd1, saveClock_getA_ne _ _ _ _ (by decide),
        (handleRewards_frame s now height).2.1]
      exact h2
    · rw [if_neg hd1]
      exact h2
  have c3S1 : getA S1.lastProcessingTimes
      LAST_REDEMPTION_RATE_QUERY_TIME_KEY = some l3 := by
    rw [← hS1]
    by_cases hd1 : l1 + s.config.liquid_staking_interval ≤ now
    · rw [if_pos hd1, saveClock_getA_ne _ _ _ _ (by decide),
        (handleRewards_frame s now height).2.1]
      exact h3
    · rw [if_neg hd1]
      exact h3
  by_cases hd2 : l2 + s.config.arch_liquid_stake_interval ≤ now
  · rw [if_pos hd2] at h
    cases hg : get_total_liquid_stake S1 with
    | error e =>
      rw [hg] at h
      exact absurd h (by simp)
    | ok t =>
      rw [hg] at h
      dsimp only at h
      obtain ⟨g1, g2, _⟩ := gtls_frame _ _ hg
      by_cases hd3 : l3 + s.config.redemption_rate_query_interval ≤ now
      · rw [if_pos hd3] at h
        simp only [Except.ok.injEq] at h
        subst h
        refine ⟨(g1.trans cfgS1 : _), ?_, ?_, ?_⟩
        · rw [saveClock_getA_ne _ _ _ _ (by decide),
            saveClock_getA_ne _ _ _ _ (by decide), g2]
          exact c1S1
        · rw [saveClock_getA_ne _ _ _ _ (by decide),
            saveClock_getA_self, if_pos hd2]
        · rw [saveClock_getA_self, if_pos hd3]
      · rw [if_neg hd3] at h
        simp only [Except.ok.injEq] at h
        subst h
        refine ⟨(g1.trans cfgS1 : _), ?_, ?_, ?_⟩
        · rw [saveClock_getA_ne _ _ _ _ (by decide), g2]
          exact c1S1
        · rw [saveClock_getA_self, if_pos hd2]
        · rw [saveClock_getA_ne _ _ _ _ (by decide), g2, c3S1, if_neg hd3]
  · rw [if_neg hd2] at h
    dsimp only at h
    by_cases hd3 : l3 + s.config.redemption_rate_query_interval ≤ now
    · rw [if_pos hd3] at h
      simp only [Except.ok.injEq] at h
      subst h
      refine ⟨(cfgS1 : _), ?_, ?_, ?_⟩
      · rw [saveClock_getA_ne _ _ _ _ (by decide)]
        exact c1S1
      · rw [saveClock_getA_ne _ _ _ _ (by decide), c2S1, if_neg hd2]
      · rw [saveClock_getA_self, if_pos hd3]
    · rw [if_neg hd3] at h
      simp only [Except.ok.injEq] at h
      subst h
      refine ⟨(cfgS1 : _), ?_, ?_, ?_⟩
      · exact c1S1
      · rw [c2S1, if_neg hd2]
      · rw [c3S1, if_neg hd3]

/-- Claim C8: the interval gate — within one cron call each task runs iff
`now` has reached its own last-run time plus its interval (gates decided
independently, a not-due task never blocking the others: the call equals
`cronJobSpec`, whose gates all read the original clocks); a task's clock
is set to `now` exactly when the task ran; and a second call within every
task's new interval window is a complete no-op returning the state
unchanged. -/
theorem c8_interval_gate (s : State) (now height l1 l2 l3 : Nat)
    (h1 : getA s.lastProcessingTimes
      LAST_LIQUID_STAKING_DAPP_REWARDS_TIME_KEY = some l1)
    (h2 : getA s.lastProcessingTimes
      LAST_ARCH_LIQUID_STAKE_INTERVAL_TIME_KEY = some l2)
    (h3 : getA s.lastProcessingTimes
      LAST_REDEMPTION_RATE_QUERY_TIME_KEY = some l3) :
    execute_cron_job s now height = cronJobSpec s now height l1 l2 l3 ∧
    (∀ s', execute_cron_job s now height = .ok s' →
      s'.config = s.config ∧
      getA s'.lastProcessingTimes LAST_LIQUID_STAKING_DAPP_REWARDS_TIME_KEY =
        some (if l1 + s.config.liquid_staking_interval ≤ now then now
          else l1) ∧
      getA s'.lastProcessingTimes LAST_ARCH_LIQUID_STAKE_INTERVAL_TIME_KEY =
        some (if l2 + s.config.arch_liquid_stake_interval ≤ now then now
          else l2) ∧
      getA s'.lastProcessingTimes LAST_REDEMPTION_RATE_QUERY_TIME_KEY =
        some (if l3 + s.config.redemption_rate_query_interval ≤ now then now
          else l3)) ∧
    (∀ s' now2 height2, execute_cron_job s now height = .ok s' →
      ¬ ((if l1 + s.config.liquid_staking_interval ≤ now then now else l1) +
          s.config.liquid_staking_interval ≤ now2) →
      ¬ ((if l2 + s.config.arch_liquid_stake_interval ≤ now then now else l2) +
          s.config.arch_liquid_stake_interval ≤ now2) →
      ¬ ((if l3 + s.config.redemption_rate_query_interval ≤ now then now
            else l3) + s.config.redemption_rate_query_interval ≤ now2) →
      execute_cron_job s' now2 height2 = .ok s') := by
  have hA := cron_eq_spec s now height l1 l2 l3 h1 h2 h3
  have hB : ∀ s', execute_cron_job s now height = .ok s' →
      s'.config = s.config ∧
      getA s'.lastProcessingTimes LAST_LIQUID_STAKING_DAPP_REWARDS_TIME_KEY =
        some (if l1 + s.config.liquid_staking_interval ≤ now then now
          else l1) ∧
      getA s'.lastProcessingTimes LAST_ARCH_LIQUID_STAKE_INTERVAL_TIME_KEY =
        some (if l2 + s.config.arch_liquid_stake_interval ≤ now then now
          else l2) ∧
      getA s'.lastProcessingTimes LAST_REDEMPTION_RATE_QUERY_TIME_KEY =
        some (if l3 + s.config.redemption_rate_query_interval ≤ now then now
          else l3) := by
    intro s' h
    rw [hA] at h
    exact cronSpec_clocks s now height l1 l2 l3 h1 h2 h3 s' h
  refine ⟨hA, hB, ?_⟩
  intro s' now2 height2 hcron hn1 hn2 hn3
  obtain ⟨hcfg, c1, c2, c3⟩ := hB s' hcron
  rw [cron_eq_spec s' now2 height2 _ _ _ c1 c2 c3]
  unfold cronJobSpec
  dsimp only
  rw [hcfg, if_neg hn1]
  rw [if_neg hn2]
  dsimp only
  rw [if_neg hn3]

/-- Witness for C8: a tick at time 10 runs the tasks, and a second tick at
time 15 (inside every new interval window) is a no-op. -/
theorem c8_interval_gate_witness :
    (getA exGate.lastProcessingTimes
        LAST_LIQUID_STAKING_DAPP_REWARDS_TIME_KEY = some 0 ∧
      getA exGate.lastProcessingTimes
        LAST_ARCH_LIQUID_STAKE_INTERVAL_TIME_KEY = some 0 ∧
      getA exGate.lastProcessingTimes
        LAST_REDEMPTION_RATE_QUERY_TIME_KEY = some 0) ∧
    execute_cron_job exGate 10 1 = .ok exGateRun ∧
    execute_cron_job exGateRun 15 2 = .ok exGateRun := by
  refine ⟨⟨by decide, by decide, by decide⟩, by rfl, ?_⟩
  exact (c8_interval_gate exGate 10 1 0 0 0 (by decide) (by decide)
    (by decide)).2.2 exGateRun 15 2 (by rfl) (by decide) (by decide)
    (by decide)

theorem cron_ok_cases (s : State) (now height : Nat) (s' : State)
    (h : execute_cron_job s now height = .ok s') :
    ∃ (s1 s2 : State),
      (s1 = saveClock (handle_liquid_staking_dapp_rewards s now height)
          LAST_LIQUID_STAKING_DAPP_REWARDS_TIME_KEY now ∨ s1 = s) ∧
      ((∃ t, get_total_liquid_stake s1 = .ok t ∧
          s2 = saveClock t LAST_ARCH_LIQUID_STAKE_INTERVAL_TIME_KEY now) ∨
        s2 = s1) ∧
      (s' = saveClock s2 LAST_REDEMPTION_RATE_QUERY_TIME_KEY now ∨
        s' = s2) := by
  unfold execute_cron_job at h
  cases hp1 : should_process_task s LAST_LIQUID_STAKING_DAPP_REWARDS_TIME_KEY
      s.config.liquid_staking_interval now with
  | error e => rw [hp1] at h; simp at h
  | ok due1 =>
    rw [hp1] at h
    dsimp only at h
    generalize hS1 : (if due1 = true then
        saveClock (handle_liquid_staking_dapp_rewards s now height)
          LAST_LIQUID_STAKING_DAPP_REWARDS_TIME_KEY now
      else s) = S1 at h
    have hS1or : S1 = saveClock (handle_liquid_staking_dapp_rewards s now height)
        LAST_LIQUID_STAKING_DAPP_REWARDS_TIME_KEY now ∨ S1 = s := by
      rw [← hS1]
      cases due1
      · right; simp
      · left; simp
    cases hp2 : should_process_task S1 LAST_ARCH_LIQUID_STAKE_INTERVAL_TIME_KEY
        s.config.arch_liquid_stake_interval now with
    | error e => rw [hp2] at h; simp at h
    | ok due2 =>
      rw [hp2] at h
      dsimp only at h
      cases due2 with
      | false =>
        simp only [Bool.false_eq_true, if_false] at h
        cases hp3 : should_process_task S1 LAST_REDEMPTION_RATE_QUERY_TIME_KEY
            s.config.redemption_rate_query_interval now with
        | error e => rw [hp3] at h; simp at h
        | ok due3 =>
          rw [hp3] at h
          dsimp only at h
          refine ⟨S1, S1, hS1or, Or.inr rfl, ?_⟩
          cases due3
          · simp only [Bool.false_eq_true, if_false, Except.ok.injEq] at h
            right; exact h.symm
          · simp only [if_true, handle_redemption_rate_query,
              Except.ok.injEq] at h
            left; exact h.symm
      | true =>
        simp only [if_true] at h
        unfold handle_arch_liquid_stake_interval at h
        cases hg : get_total_liquid_stake S1 with
        | error e => rw [hg] at h; simp at h
        | ok t =>
          rw [hg] at h
          dsimp only at h
          cases hp3 : should_process_task
              (saveClock t LAST_ARCH_LIQUID_STAKE_INTERVAL_TIME_KEY now)
              LAST_REDEMPTION_RATE_QUERY_TIME_KEY
              s.config.redemption_rate_query_interval now with
          | error e => rw [hp3] at h; simp at h
          | ok due3 =>
            rw [hp3] at h
            dsimp only at h
            refine ⟨S1, saveClock t LAST_ARCH_LIQUID_STAKE_INTERVAL_TIME_KEY now,
              hS1or, Or.inl ⟨t, hg, rfl⟩, ?_⟩
            cases due3
            · simp only [Bool.false_eq_true, if_false, Except.ok.injEq] at h
              right; exact h.symm
            · simp only [if_true, handle_redemption_rate_query,
                Except.ok.injEq] at h
              left; exact h.symm

theorem foldAddReward_frame (updates : List (String × Nat)) :
    ∀ (t : State),
    updates.foldl (fun t u => add_reward_to_contract t u.1 u.2) t =
      { t with contractRewards :=
          (updates.foldl (fun t u => add_reward_to_contract t u.1 u.2)
            t).contractRewards } := by
  induction updates with
  | nil => intro t; rfl
  | cons u rest ih =>
    intro t
    rw [List.foldl_cons]
    exact ih _

theorem foldResetRecords_frame (l : List String) :
    ∀ (t : State),
    l.foldl resetRecordsStep t =
      { t with depositRecords := (l.foldl resetRecordsStep t).depositRecords } := by
  induction l with
  | nil => intro t; rfl
  | cons c rest ih =>
    intro t
    rw [List.foldl_cons]
    exact ih _

theorem execute_redeemTokens (s : State) (m : Msg) (s' : State)
    (h : execute s m = .ok s') : s'.redeemTokens = s.redeemTokens := by
  cases m with
  | CronJob now height =>
    obtain ⟨s1, s2, hs1, hs2, hs3⟩ := cron_ok_cases s now height s' h
    have e1 : s1.redeemTokens = s.redeemTokens := by
      rcases hs1 with h1 | h1
      · rw [h1]
        exact (handleRewards_frame s now height).2.2.2.2.1
      · rw [h1]
    have e2 : s2.redeemTokens = s1.redeemTokens := by
      rcases hs2 with ⟨t, hg, h2⟩ | h2
      · rw [h2]
        exact (gtls_frame _ _ hg).2.2.2.1
      · rw [h2]
    rcases hs3 with h3 | h3
    · rw [h3]
      exact e2.trans e1
    · rw [h3]
      exact e2.trans e1
  | SetContractMetadata sender ca ra la red minr maxr =>
    simp only [execute] at h
    split_ifs at h
    simp only [Except.ok.injEq] at h
    subst h
    rfl
  | AddStake sender amount =>
    simp only [execute, Except.ok.injEq] at h
    subst h
    rfl
  | UpdateReward sender ra amount =>
    simp only [execute] at h
    split_ifs at h
    simp only [Except.ok.injEq] at h
    subst h
    rfl
  | BulkUpdateRewards sender updates =>
    simp only [execute] at h
    split_ifs at h
    simp only [Except.ok.injEq] at h
    subst h
    rw [foldAddReward_frame updates s]
  | ResetAllCompletedDepositRecords sender =>
    simp only [execute] at h
    split_ifs at h
    simp only [Except.ok.injEq] at h
    subst h
    unfold reset_all_completed_deposit_records
    rw [foldResetRecords_frame (mkeys s) s]
  | ResetStakeRatios sender =>
    simp only [execute] at h
    split_ifs at h
    simp only [Except.ok.injEq] at h
    subst h
    rfl
  | DistributeLiquidity sender =>
    simp only [execute] at h
    split_ifs at h
    simp only [Except.ok.injEq] at h
    subst h
    unfold distribute_liquidity
    split_ifs with h0
    · rfl
    · rw [foldStakeRatios_frame s _ (mkeys s) s]
  | DistributeRedeemTokens sender =>
    simp only [execute] at h
    split_ifs at h
    unfold distribute_redeem_tokens_core at h
    split_ifs at h with h0
    simp only [Except.ok.injEq] at h
    subst h
    rw [foldRedeem_frame (totalRedeemTokens s) (redemptionEntries s) s]
  | ResetRedemptionRatios sender =>
    simp only [execute] at h
    split_ifs at h
    simp only [Except.ok.injEq] at h
    subst h
    rfl
  | SetRedeemTokens sender amount ca =>
    simp only [execute] at h
    split_ifs at h
    simp only [Except.ok.injEq] at h
    subst h
    rfl
  | SubtractFromTotalLiquidStake sender amount =>
    simp only [execute] at h
    split_ifs at h
    unfold subtract_from_total_liquid_stake_core at h
    cases hcs : checkedSub s.totalLiquidStake amount with
    | none => rw [hcs] at h; exact absurd h (by simp)
    | some v =>
      rw [hcs] at h
      simp only [Except.ok.injEq] at h
      subst h
      rfl
  | EmitLiquidStakeEvent sender =>
    simp only [execute] at h
    split_ifs at h
    simp only [Except.ok.injEq] at h
    subst h
    rfl
  | EmitDistributeLiquidityEvent sender =>
    simp only [execute] at h
    split_ifs at h
    simp only [Except.ok.injEq] at h
    subst h
    rfl

/-- Claim C10: in every reachable state the `REDEEM_TOKENS` map is empty —
no execute handler ever writes it (redemption deposits go to the separate
`REDEMPTION_RECORDS` map) — so the `GetRedeemTokens` query returns zero
for every account. -/
theorem c10_get_redeem_tokens_zero (s : State) (h : Reachable s) :
    s.redeemTokens = [] ∧
    ∀ contract, queryGetRedeemTokens s contract = 0 := by
  have hempty : s.redeemTokens = [] := by
    induction h with
    | init msg sender now => rfl
    | step hr hm hexec ih =>
      rw [execute_redeemTokens _ _ _ hexec]
      exact ih
  refine ⟨hempty, fun contract => ?_⟩
  unfold queryGetRedeemTokens
  rw [hempty]
  rfl

/-- Witness for C10 along a concrete six-call trace ending in a redemption
distribution. -/
theorem c10_get_redeem_tokens_zero_witness :
    Reachable exRedeemDist ∧ queryGetRedeemTokens exRedeemDist "c1" = 0 := by
  have r0 : Reachable exInit := .init ⟨0, 0, 0, 0, 0⟩ "admin" 0
  have r1 : Reachable exMeta := .step r0 trivial
    (show execute exInit
      (.SetContractMetadata "admin" "c1" "r1" "l1" "rd1" 50 1000) =
      .ok exMeta by rfl)
  have r2 : Reachable exMetaB := .step r1 trivial
    (show execute exMeta
      (.SetContractMetadata "admin" "c2" "r2" "l2" "rd2" 50 1000) =
      .ok exMetaB by rfl)
  have r3 : Reachable (stepOk exMetaB (.SetRedeemTokens "admin" 200 "c1")) :=
    .step r2 trivial
      (show execute exMetaB (.SetRedeemTokens "admin" 200 "c1") =
        .ok (stepOk exMetaB (.SetRedeemTokens "admin" 200 "c1")) by rfl)
  have r4 : Reachable exRedeem := .step r3 trivial
    (show execute (stepOk exMetaB (.SetRedeemTokens "admin" 200 "c1"))
      (.SetRedeemTokens "admin" 800 "c2") = .ok exRedeem by rfl)
  have r5 : Reachable exRedeemDist := .step r4 trivial
    (show execute exRedeem (.DistributeRedeemTokens "admin") =
      .ok exRedeemDist by rfl)
  exact ⟨r5, (c10_get_redeem_tokens_zero exRedeemDist r5).2 "c1"⟩

/-! ### The global-total bookkeeping -/

theorem gtls_sync (s t : State) (h : get_total_liquid_stake s = .ok t)
    (hs : s.totalLiquidStake = sumVals s.completedStakes) :
    t.totalLiquidStake = sumVals t.completedStakes := by
  unfold get_total_liquid_stake at h
  cases hmc : matureContracts s s.totalLiquidStake (mkeys s) with
  | error e => rw [hmc] at h; simp at h
  | ok out =>
    obtain ⟨s1, tls⟩ := out
    rw [hmc] at h
    simp only [Except.ok.injEq] at h
    subst h
    have hsum := matureContracts_sum (mkeys s) s _ _ hmc
    dsimp only at hsum ⊢
    omega

theorem execute_sync (s : State) (m : Msg) (s' : State)
    (h : execute s m = .ok s')
    (hm1 : isSubtractMsg m = false)
    (hm2 : isResetStakeRatiosMsg m = false)
    (hsync : s.totalLiquidStake = sumVals s.completedStakes) :
    s'.totalLiquidStake = sumVals s'.completedStakes := by
  cases m with
  | CronJob now height =>
    obtain ⟨s1, s2, hs1, hs2, hs3⟩ := cron_ok_cases s now height s' h
    have e1 : s1.totalLiquidStake = sumVals s1.completedStakes := by
      rcases hs1 with h1 | h1
      · rw [h1]
        have f := handleRewards_frame s now height
        show (handle_liquid_staking_dapp_rewards s now
          height).totalLiquidStake = sumVals (handle_liquid_staking_dapp_rewards
            s now height).completedStakes
        rw [f.2.2.1, f.2.2.2.2.2.2.2.2]
        exact hsync
      · rw [h1]
        exact hsync
    have e2 : s2.totalLiquidStake = sumVals s2.completedStakes := by
      rcases hs2 with ⟨t, hg, h2⟩ | h2
      · rw [h2]
        exact gtls_sync s1 t hg e1
      · rw [h2]
        exact e1
    rcases hs3 with h3 | h3
    · rw [h3]
      exact e2
    · rw [h3]
      exact e2
  | SetContractMetadata sender ca ra la red minr maxr =>
    simp only [execute] at h
    split_ifs at h
    simp only [Except.ok.injEq] at h
    subst h
    exact hsync
  | AddStake sender amount =>
    simp only [execute, Except.ok.injEq] at h
    subst h
    exact hsync
  | UpdateReward sender ra amount =>
    simp only [execute] at h
    split_ifs at h
    simp only [Except.ok.injEq] at h
    subst h
    exact hsync
  | BulkUpdateRewards sender updates =>
    simp only [execute] at h
    split_ifs at h
    simp only [Except.ok.injEq] at h
    subst h
    rw [foldAddReward_frame updates s]
    exact hsync
  | ResetAllCompletedDepositRecords sender =>
    simp only [execute] at h
    split_ifs at h
    simp only [Except.ok.injEq] at h
    subst h
    unfold reset_all_completed_deposit_records
    rw [foldResetRecords_frame (mkeys s) s]
    exact hsync
  | ResetStakeRatios sender => simp [isResetStakeRatiosMsg] at hm2
  | DistributeLiquidity sender =>
    simp only [execute] at h
    split_ifs at h
    simp only [Except.ok.injEq] at h
    subst h
    unfold distribute_liquidity
    split_ifs with h0
    · exact hsync
    · rw [foldStakeRatios_frame s _ (mkeys s) s]
      exact hsync
  | DistributeRedeemTokens sender =>
    simp only [execute] at h
    split_ifs at h
    unfold distribute_redeem_tokens_core at h
    split_ifs at h with h0
    simp only [Except.ok.injEq] at h
    subst h
    rw [foldRedeem_frame (totalRedeemTokens s) (redemptionEntries s) s]
    exact hsync
  | ResetRedemptionRatios sender =>
    simp only [execute] at h
    split_ifs at h
    simp only [Except.ok.injEq] at h
    subst h
    exact hsync
  | SetRedeemTokens sender amount ca =>
    simp only [execute] at h
    split_ifs at h
    simp only [Except.ok.injEq] at h
    subst h
    exact hsync
  | SubtractFromTotalLiquidStake sender amount =>
    simp [isSubtractMsg] at hm1
  | EmitLiquidStakeEvent sender =>
    simp only [execute] at h
    split_ifs at h
    simp only [Except.ok.injEq] at h
    subst h
    exact hsync
  | EmitDistributeLiquidityEvent sender =>
    simp only [execute] at h
    split_ifs at h
    simp only [Except.ok.injEq] at h
    subst h
    exact hsync

/-- Counterexample to C6 as stated: along a subtraction-free trace, the
`reset_stake_ratios` call zeroes every completed stake but leaves
`TOTAL_LIQUID_STAKE` at 100, so the equality fails in a reachable state
with no admin subtraction. -/
theorem c6_counterexample :
    ¬ (∀ s, ReachableFrom (fun m => isSubtractMsg m = false) s →
        s.totalLiquidStake = sumVals s.completedStakes) := by
  intro hclaim
  have r0 : ReachableFrom (fun m => isSubtractMsg m = false) exInit :=
    .init ⟨0, 0, 0, 0, 0⟩ "admin" 0
  have r1 : ReachableFrom (fun m => isSubtractMsg m = false) exMeta :=
    .step r0 (by rfl)
      (show execute exInit
        (.SetContractMetadata "admin" "c1" "r1" "l1" "rd1" 50 1000) =
        .ok exMeta by rfl)
  have r2 : ReachableFrom (fun m => isSubtractMsg m = false) exRwd :=
    .step r1 (by rfl)
      (show execute exMeta (.UpdateReward "admin" "c1" 100) =
        .ok exRwd by rfl)
  have r3 : ReachableFrom (fun m => isSubtractMsg m = false) exMatCron :=
    .step r2 (by rfl)
      (show execute exRwd (.CronJob 1 1) = .ok exMatCron by rfl)
  have r4 : ReachableFrom (fun m => isSubtractMsg m = false) exReset :=
    .step r3 (by rfl)
      (show execute exMatCron (.ResetStakeRatios "admin") =
        .ok exReset by rfl)
  exact absurd (hclaim exReset r4) (by decide)

/-- Claim C6 (amended): `TOTAL_LIQUID_STAKE` equals the sum of all
completed stakes in every state reachable without the admin subtraction
and without `reset_stake_ratios`; the subtraction decouples the two by
design, and — beyond the claim's sole stated exception —
`reset_stake_ratios` also breaks the equality, because it zeroes every
completed stake while leaving the global total untouched. -/
theorem c6_total_liquid_stake_sync (s : State)
    (h : ReachableFrom (fun m => isSubtractMsg m = false ∧
      isResetStakeRatiosMsg m = false) s) :
    s.totalLiquidStake = sumVals s.completedStakes := by
  induction h with
  | init msg sender now => rfl
  | step hr hm hexec ih => exact execute_sync _ _ _ hexec hm.1 hm.2 ih

/-- Witness for the amended C6 along a concrete reset-free trace. -/
theorem c6_total_liquid_stake_sync_witness :
    ReachableFrom (fun m => isSubtractMsg m = false ∧
      isResetStakeRatiosMsg m = false) exMatCron ∧
    exMatCron.totalLiquidStake = sumVals exMatCron.completedStakes := by
  have r0 : ReachableFrom (fun m => isSubtractMsg m = false ∧
      isResetStakeRatiosMsg m = false) exInit :=
    .init ⟨0, 0, 0, 0, 0⟩ "admin" 0
  have r1 : ReachableFrom (fun m => isSubtractMsg m = false ∧
      isResetStakeRatiosMsg m = false) exMeta :=
    .step r0 ⟨by rfl, by rfl⟩
      (show execute exInit
        (.SetContractMetadata "admin" "c1" "r1" "l1" "rd1" 50 1000) =
        .ok exMeta by rfl)
  have r2 : ReachableFrom (fun m => isSubtractMsg m = false ∧
      isResetStakeRatiosMsg m = false) exRwd :=
    .step r1 ⟨by rfl, by rfl⟩
      (show execute exMeta (.UpdateReward "admin" "c1" 100) =
        .ok exRwd by rfl)
  have r3 : ReachableFrom (fun m => isSubtractMsg m = false ∧
      isResetStakeRatiosMsg m = false) exMatCron :=
    .step r2 ⟨by rfl, by rfl⟩
      (show execute exRwd (.CronJob 1 1) = .ok exMatCron by rfl)
  exact ⟨r3, c6_total_liquid_stake_sync exMatCron r3⟩

/-! ### The stake-ratio partition -/

/-- Counterexample to C5 as stated: maturation yields a reachable state
with positive completed stake in which `distribute_liquidity` has never
run, so no stake-ratio entries exist and their sum is 0, not 1. -/
theorem c5_counterexample :
    ¬ (∀ s, Reachable s →
        (0 < sumVals s.completedStakes →
          sumVals s.stakeRatios = DECIMAL_FRACTIONAL) ∧
        (sumVals s.completedStakes = 0 → s.stakeRatios = [])) := by
  intro hclaim
  have r0 : Reachable exInit := .init ⟨0, 0, 0, 0, 0⟩ "admin" 0
  have r1 : Reachable exMeta := .step r0 trivial
    (show execute exInit
      (.SetContractMetadata "admin" "c1" "r1" "l1" "rd1" 50 1000) =
      .ok exMeta by rfl)
  have r2 : Reachable exRwd := .step r1 trivial
    (show execute exMeta (.UpdateReward "admin" "c1" 100) =
      .ok exRwd by rfl)
  have r3 : Reachable exMatCron := .step r2 trivial
    (show execute exRwd (.CronJob 1 1) = .ok exMatCron by rfl)
  exact absurd ((hclaim exMatCron r3).1 (by decide)) (by decide)

theorem sumRatios_bounds (s : State) (l : List String)
    (hval : ∀ c ∈ l, getA (distribute_liquidity s).stakeRatios c =
      some ((getA s.completedStakes c).getD 0 * DECIMAL_FRACTIONAL /
        sumCompletedOver s (mkeys s))) :
    sumRatiosOver (distribute_liquidity s) l ≤
      sumCompletedOver s l * DECIMAL_FRACTIONAL /
        sumCompletedOver s (mkeys s) ∧
    ((∀ c ∈ l, sumCompletedOver s (mkeys s) ∣
        (getA s.completedStakes c).getD 0 * DECIMAL_FRACTIONAL) →
      sumRatiosOver (distribute_liquidity s) l =
        sumCompletedOver s l * DECIMAL_FRACTIONAL /
          sumCompletedOver s (mkeys s) ∧
      sumCompletedOver s (mkeys s) ∣
        sumCompletedOver s l * DECIMAL_FRACTIONAL) := by
  induction l with
  | nil =>
    simp [sumRatiosOver, sumCompletedOver]
  | cons c rest ih =>
    obtain ⟨ihA, ihB⟩ := ih (fun c' hc' => hval c' (by simp [hc']))
    have hc0 := hval c (by simp)
    constructor
    · simp only [sumRatiosOver, sumCompletedOver, hc0, Option.getD_some]
      calc (getA s.completedStakes c).getD 0 * DECIMAL_FRACTIONAL /
            sumCompletedOver s (mkeys s) +
          sumRatiosOver (distribute_liquidity s) rest ≤
          (getA s.completedStakes c).getD 0 * DECIMAL_FRACTIONAL /
            sumCompletedOver s (mkeys s) +
          sumCompletedOver s rest * DECIMAL_FRACTIONAL /
            sumCompletedOver s (mkeys s) := by omega
        _ ≤ ((getA s.completedStakes c).getD 0 * DECIMAL_FRACTIONAL +
            sumCompletedOver s rest * DECIMAL_FRACTIONAL) /
            sumCompletedOver s (mkeys s) :=
          Nat.add_div_le_add_div _ _ _
        _ = ((getA s.completedStakes c).getD 0 +
            sumCompletedOver s rest) * DECIMAL_FRACTIONAL /
            sumCompletedOver s (mkeys s) := by
          rw [Nat.add_mul]
    · intro hdvd
      obtain ⟨ihE, ihD⟩ := ihB (fun c' hc' => hdvd c' (by simp [hc']))
      have hdc := hdvd c (by simp)
      constructor
      · simp only [sumRatiosOver, sumCompletedOver, hc0, Option.getD_some,
          ihE, Nat.add_mul]
        obtain ⟨k1, hk1⟩ := hdc
        obtain ⟨k2, hk2⟩ := ihD
        rcases Nat.eq_zero_or_pos (sumCompletedOver s (mkeys s)) with hz | hp
        · simp [hz]
        · rw [hk1, hk2, ← Nat.mul_add,
            Nat.mul_div_cancel_left _ hp, Nat.mul_div_cancel_left _ hp,
            Nat.mul_div_cancel_left _ hp]
      · simp only [sumCompletedOver]
        rw [Nat.add_mul]
        exact Nat.dvd_add hdc ihD

/-- Claim C5 (amended): after a `distribute_liquidity` call with positive
total completed stake, the sum of the persisted stake-ratio numerators
over the considered accounts is at most 1 (equal to `DECIMAL_FRACTIONAL`),
with equality whenever every scaled stake is divisible by the total (the
truncating division loses the remainders otherwise); as stated the claim
fails, since a reachable state can hold positive completed stake before
any distribution has run, with no ratio entries at all. -/
theorem c5_stake_ratio_partition (s : State)
    (h0 : sumCompletedOver s (mkeys s) ≠ 0) :
    sumRatiosOver (distribute_liquidity s) (mkeys s) ≤ DECIMAL_FRACTIONAL ∧
    ((∀ c ∈ mkeys s, sumCompletedOver s (mkeys s) ∣
        (getA s.completedStakes c).getD 0 * DECIMAL_FRACTIONAL) →
      sumRatiosOver (distribute_liquidity s) (mkeys s) =
        DECIMAL_FRACTIONAL) := by
  have hval : ∀ c ∈ mkeys s, getA (distribute_liquidity s).stakeRatios c =
      some ((getA s.completedStakes c).getD 0 * DECIMAL_FRACTIONAL /
        sumCompletedOver s (mkeys s)) := by
    intro c hc
    unfold distribute_liquidity
    rw [if_neg h0]
    exact foldStakeRatios_mem s _ (mkeys s) s c hc
  obtain ⟨hA, hB⟩ := sumRatios_bounds s (mkeys s) hval
  have hcancel : sumCompletedOver s (mkeys s) * DECIMAL_FRACTIONAL /
      sumCompletedOver s (mkeys s) = DECIMAL_FRACTIONAL :=
    Nat.mul_div_cancel_left _ (Nat.pos_of_ne_zero h0)
  constructor
  · rw [hcancel] at hA
    exact hA
  · intro hdvd
    obtain ⟨hE, _⟩ := hB hdvd
    rw [hcancel] at hE
    exact hE

/-- Witness for the amended C5 at `exMat`: one account holding the whole
stake gets ratio numerator exactly `DECIMAL_FRACTIONAL`. -/
theorem c5_stake_ratio_partition_witness :
    sumCompletedOver exMat (mkeys exMat) ≠ 0 ∧
    sumRatiosOver (distribute_liquidity exMat) (mkeys exMat) =
      DECIMAL_FRACTIONAL := by
  refine ⟨by decide, ?_⟩
  apply (c5_stake_ratio_partition exMat (by decide)).2
  intro c hc
  have hm : mkeys exMat = ["c1"] := by decide
  rw [hm] at hc
  simp only [List.mem_singleton] at hc
  subst hc
  decide

/-! ### Deposit-record ids -/

theorem mem_allIdsL_of_getA {m : List (String × List DepositRecord)}
    {c : String} {recs : List DepositRecord}
    (h : getA m c = some recs) {i : Nat} (hi : i ∈ recIds recs) :
    i ∈ allIdsL m := by
  induction m with
  | nil => simp [getA] at h
  | cons p rest ih =>
    obtain ⟨k, v⟩ := p
    by_cases hk : k = c
    · simp [getA, hk] at h
      subst h
      exact List.mem_append_left _ hi
    · simp only [getA, if_neg hk] at h
      exact List.mem_append_right _ (ih h)

theorem allIdsL_setA_append {m : List (String × List DepositRecord)}
    {c : String} {old : List DepositRecord} (x : DepositRecord)
    (h : getA m c = some old) :
    (∀ i, i ∈ allIdsL (setA m c (old ++ [x])) ↔
      i ∈ allIdsL m ∨ i = x.id) ∧
    ((allIdsL m).Nodup → x.id ∉ allIdsL m →
      (allIdsL (setA m c (old ++ [x]))).Nodup) := by
  induction m with
  | nil => simp [getA] at h
  | cons p rest ih =>
    obtain ⟨k, v⟩ := p
    by_cases hk : k = c
    · subst hk
      simp [getA] at h
      subst h
      simp only [setA, if_pos rfl]
      constructor
      · intro i
        simp only [allIdsL, recIds, List.map_append, List.map_cons,
          List.map_nil, List.mem_append, List.mem_cons, List.mem_singleton,
          List.not_mem_nil, or_false]
        tauto
      · intro hnd hx
        simp only [allIdsL, recIds, List.map_append, List.map_cons,
          List.map_nil] at *
        rw [List.append_assoc]
        have : ([x.id] ++ allIdsL rest) = x.id :: allIdsL rest := rfl
        rw [this, List.nodup_middle]
        refine List.nodup_cons.mpr ⟨?_, hnd⟩
        exact hx
    · simp only [getA, if_neg hk] at h
      simp only [setA, if_neg hk]
      obtain ⟨ihm, ihn⟩ := ih h
      constructor
      · intro i
        simp only [allIdsL, List.mem_append, ihm]
        tauto
      · intro hnd hx
        simp only [allIdsL] at hnd hx ⊢
        rw [List.nodup_append] at hnd ⊢
        obtain ⟨n1, n2, ndisj⟩ := hnd
        refine ⟨n1, ihn n2 (fun hmem => hx (List.mem_append_right _ hmem)), ?_⟩
        intro a ha hamem
        rcases (ihm a).mp hamem with hold | hxa
        · exact ndisj ha hold
        · subst hxa
          exact hx (List.mem_append_left _ ha)

theorem allIdsL_setA_none {m : List (String × List DepositRecord)}
    {c : String} (h : getA m c = none) (recs : List DepositRecord) :
    allIdsL (setA m c recs) = allIdsL m ++ recIds recs := by
  induction m with
  | nil => simp [setA, allIdsL, recIds]
  | cons p rest ih =>
    obtain ⟨k, v⟩ := p
    by_cases hk : k = c
    · simp [getA, hk] at h
    · simp only [getA, if_neg hk] at h
      simp only [setA, if_neg hk, allIdsL, ih h, List.append_assoc]

theorem allIdsL_setA_sameIds {m : List (String × List DepositRecord)}
    {c : String} {old : List DepositRecord} (h : getA m c = some old)
    {recs : List DepositRecord} (hids : recIds recs = recIds old) :
    allIdsL (setA m c recs) = allIdsL m := by
  induction m with
  | nil => simp [getA] at h
  | cons p rest ih =>
    obtain ⟨k, v⟩ := p
    by_cases hk : k = c
    · subst hk
      simp [getA] at h
      subst h
      simp only [setA, if_pos rfl, allIdsL, hids]
    · simp only [getA, if_neg hk] at h
      simp only [setA, if_neg hk, allIdsL, ih h]

theorem allIdsL_setA_sublist {m : List (String × List DepositRecord)}
    {c : String} {old : List DepositRecord} (h : getA m c = some old)
    {recs : List DepositRecord} (hsub : recs.Sublist old) :
    (allIdsL (setA m c recs)).Sublist (allIdsL m) := by
  induction m with
  | nil => simp [getA] at h
  | cons p rest ih =>
    obtain ⟨k, v⟩ := p
    by_cases hk : k = c
    · subst hk
      simp [getA] at h
      subst h
      simp only [setA, if_pos rfl, allIdsL]
      exact (List.Sublist.map (·.id) hsub).append_right _
    · simp only [getA, if_neg hk] at h
      simp only [setA, if_neg hk, allIdsL]
      exact (ih h).append_left _

theorem completeRec_id (r : DepositRecord) : (completeRec r).id = r.id := by
  unfold completeRec
  split <;> rfl

theorem recIds_map_completeRec (l : List DepositRecord) :
    recIds (l.map completeRec) = recIds l := by
  simp [recIds, List.map_map, Function.comp, completeRec_id]

theorem processReward_ids (rm : List (String × Nat)) (now height : Nat)
    (t : State) (c : String) :
    t.nextDepositRecordId ≤
      (processRewardContract rm now height t c).nextDepositRecordId ∧
    (∀ i ∈ allIds (processRewardContract rm now height t c),
      i ∈ allIds t ∨
      (t.nextDepositRecordId < i ∧
        i ≤ (processRewardContract rm now height t c).nextDepositRecordId)) ∧
    (IdInv t → IdInv (processRewardContract rm now height t c)) := by
  unfold processRewardContract
  cases hmeta : getA t.contractMetadata c with
  | none => exact ⟨Nat.le_refl _, fun i hi => Or.inl hi, fun h => h⟩
  | some meta =>
    dsimp only
    generalize
      (if meta.maximum_reward_amount < (getA rm c).getD 0 then
        meta.maximum_reward_amount
      else (getA rm c).getD 0) = amount
    split_ifs with hmin
    · simp only [add_contract_stake, allIds, IdInv]
      cases hdr : getA t.depositRecords c with
      | some old =>
        simp only [hdr, Option.getD_some]
        set x : DepositRecord :=
          { id := t.nextDepositRecordId + 1, contract_address := c,
            amount := amount,
            status := "pending", timestamp := now, block_height := height } with hx
        obtain ⟨hmem, hnd⟩ := allIdsL_setA_append x hdr
        refine ⟨Nat.le_succ _, ?_, ?_⟩
        · intro i hi
          rcases (hmem i).mp hi with hold | hnew
          · exact Or.inl hold
          · right
            rw [hnew]
            exact ⟨Nat.lt_succ_self _, Nat.le_refl _⟩
        · rintro ⟨ibd, ind, ipw⟩
          refine ⟨?_, ?_, ?_⟩
          · intro i hi
            rcases (hmem i).mp hi with hold | hnew
            · exact Nat.le_succ_of_le (ibd i hold)
            · rw [hnew]
          · exact hnd ind (fun hmem2 => Nat.lt_irrefl _
              (Nat.lt_of_lt_of_le (Nat.lt_succ_self _) (ibd _ hmem2)))
          · intro c' recs hrecs
            by_cases hc : c' = c
            · subst hc
              rw [getA_setA_self] at hrecs
              cases hrecs
              have hpw_old : (recIds old).Pairwise (· < ·) := ipw c' old hdr
              simp only [recIds, List.map_append, List.map_cons, List.map_nil]
              rw [List.pairwise_append]
              refine ⟨hpw_old, List.pairwise_singleton _ _, ?_⟩
              intro a ha b hb
              simp only [List.mem_cons, List.not_mem_nil, or_false] at hb
              subst hb
              have : a ∈ allIdsL t.depositRecords :=
                mem_allIdsL_of_getA hdr ha
              exact Nat.lt_succ_of_le (ibd a this)
            · rw [getA_setA_ne _ _ (fun he => hc he.symm)] at hrecs
              exact ipw c' recs hrecs
      | none =>
        simp only [hdr, Option.getD_none, List.nil_append]
        set x : DepositRecord :=
          { id := t.nextDepositRecordId + 1, contract_address := c,
            amount := amount,
            status := "pending", timestamp := now, block_height := height } with hx
        have heq := allIdsL_setA_none hdr [x]
        refine ⟨Nat.le_succ _, ?_, ?_⟩
        · intro i hi
          rw [heq] at hi
          rcases List.mem_append.mp hi with hold | hnew
          · exact Or.inl hold
          · simp only [recIds, List.map_cons, List.map_nil,
              List.mem_singleton] at hnew
            right
            rw [hnew]
            exact ⟨Nat.lt_succ_self _, Nat.le_refl _⟩
        · rintro ⟨ibd, ind, ipw⟩
          refine ⟨?_, ?_, ?_⟩
          · intro i hi
            rw [heq] at hi
            rcases List.mem_append.mp hi with hold | hnew
            · exact Nat.le_succ_of_le (ibd i hold)
            · simp only [recIds, List.map_cons, List.map_nil,
                List.mem_singleton] at hnew
              rw [hnew]
          · rw [heq]
            have : recIds [x] = [x.id] := rfl
            rw [this, List.nodup_middle, List.append_nil]
            refine List.nodup_cons.mpr ⟨?_, ind⟩
            exact fun hmem2 => Nat.lt_irrefl _
              (Nat.lt_of_lt_of_le (Nat.lt_succ_self _) (ibd _ hmem2))
          · intro c' recs hrecs
            by_cases hc : c' = c
            · subst hc
              rw [getA_setA_self] at hrecs
              cases hrecs
              exact List.pairwise_singleton _ _
            · rw [getA_setA_ne _ _ (fun he => hc he.symm)] at hrecs
              exact ipw c' recs hrecs
    · exact ⟨Nat.le_refl _, fun i hi => Or.inl hi, fun h => h⟩

theorem foldReward_ids (rm : List (String × Nat)) (now height : Nat)
    (l : List String) :
    ∀ (t : State),
    t.nextDepositRecordId ≤
      (l.foldl (processRewardContract rm now height) t).nextDepositRecordId ∧
    (∀ i ∈ allIds (l.foldl (processRewardContract rm now height) t),
      i ∈ allIds t ∨
      (t.nextDepositRecordId < i ∧
        i ≤ (l.foldl (processRewardContract rm now height) t).nextDepositRecordId)) ∧
    (IdInv t → IdInv (l.foldl (processRewardContract rm now height) t)) := by
  induction l with
  | nil => exact fun t => ⟨Nat.le_refl _, fun i hi => Or.inl hi, fun h => h⟩
  | cons c rest ih =>
    intro t
    simp only [List.foldl_cons]
    obtain ⟨hle1, hmem1, hinv1⟩ := processReward_ids rm now height t c
    obtain ⟨hle2, hmem2, hinv2⟩ := ih (processRewardContract rm now height t c)
    refine ⟨Nat.le_trans hle1 hle2, ?_, fun h => hinv2 (hinv1 h)⟩
    intro i hi
    rcases hmem2 i hi with hmid | ⟨hgt, hle⟩
    · rcases hmem1 i hmid with hold | ⟨hgt, hle⟩
      · exact Or.inl hold
      · exact Or.inr ⟨hgt, Nat.le_trans hle hle2⟩
    · exact Or.inr ⟨Nat.lt_of_le_of_lt hle1 hgt, hle⟩

theorem handleRewards_ids (s : State) (now height : Nat) :
    s.nextDepositRecordId ≤
      (handle_liquid_staking_dapp_rewards s now height).nextDepositRecordId ∧
    (∀ i ∈ allIds (handle_liquid_staking_dapp_rewards s now height),
      i ∈ allIds s ∨
      (s.nextDepositRecordId < i ∧
        i ≤ (handle_liquid_staking_dapp_rewards s now height).nextDepositRecordId)) ∧
    (IdInv s → IdInv (handle_liquid_staking_dapp_rewards s now height)) :=
  foldReward_ids (get_cumulative_reward_amount s) now height (mkeys s) s

theorem matureContracts_ids (l : List String) :
    ∀ (s : State) (tls : Nat) (out : State × Nat),
    matureContracts s tls l = .ok out →
    allIdsL out.1.depositRecords = allIdsL s.depositRecords ∧
    (∀ c recs, getA out.1.depositRecords c = some recs →
      recIds recs = [] ∨
      ∃ old, getA s.depositRecords c = some old ∧ recIds recs = recIds old) := by
  induction l with
  | nil =>
    intro s tls out h
    have h2 : (s, tls) = out := by simpa [matureContracts] using h
    subst h2
    exact ⟨rfl, fun c recs hr => Or.inr ⟨recs, hr, rfl⟩⟩
  | cons c rest ih =>
    intro s tls out h
    simp only [matureContracts] at h
    cases hm : matureRecords c s tls [] ((getA s.depositRecords c).getD []) with
    | error e => rw [hm] at h; simp at h
    | ok trip =>
      obtain ⟨s1, tls1, upd⟩ := trip
      rw [hm] at h
      have f3 : s1.depositRecords = s.depositRecords :=
        (matureRecords_frame c _ _ _ _ _ hm).2.2.1
      have hupd : upd = ((getA s.depositRecords c).getD []).map completeRec := by
        have := (matureRecords_effects c _ _ _ _ _ hm).2.1
        simpa using this
      have hids : recIds upd = recIds ((getA s.depositRecords c).getD []) := by
        rw [hupd, recIds_map_completeRec]
      obtain ⟨ih1, ih2⟩ := ih _ _ _ h
      dsimp only at ih1 ih2
      rw [f3] at ih1 ih2
      constructor
      · rw [ih1]
        cases hdr : getA s.depositRecords c with
        | some old =>
          refine allIdsL_setA_sameIds hdr ?_
          rw [hids, hdr, Option.getD_some]
        | none =>
          rw [allIdsL_setA_none hdr upd, hids, hdr]
          simp [recIds]
      · intro c' recs hrecs
        rcases ih2 c' recs hrecs with hnil | ⟨mid, hmid, hrm⟩
        · exact Or.inl hnil
        · by_cases hc : c' = c
          · subst hc
            rw [getA_setA_self] at hmid
            cases hmid
            cases hdr : getA s.depositRecords c' with
            | some old =>
              refine Or.inr ⟨old, rfl, ?_⟩
              rw [hrm, hids, hdr, Option.getD_some]
            | none =>
              left
              rw [hrm, hids, hdr]
              rfl
          · rw [getA_setA_ne _ _ (fun he => hc he.symm)] at hmid
            exact Or.inr ⟨mid, hmid, hrm⟩

theorem gtls_ids (s t : State) (h : get_total_liquid_stake s = .ok t)
    (hInv : IdInv s) :
    IdInv t ∧ allIds t = allIds s ∧
    t.nextDepositRecordId = s.nextDepositRecordId := by
  unfold get_total_liquid_stake at h
  cases hmc : matureContracts s s.totalLiquidStake (mkeys s) with
  | error e => rw [hmc] at h; simp at h
  | ok out =>
    obtain ⟨s1, tls⟩ := out
    rw [hmc] at h
    simp only [Except.ok.injEq] at h
    subst h
    obtain ⟨hall, hget⟩ := matureContracts_ids (mkeys s) s _ _ hmc
    have hnid : s1.nextDepositRecordId = s.nextDepositRecordId :=
      (matureContracts_frame (mkeys s) s _ _ hmc).2.2.2.2.2.2.2.2.1
    obtain ⟨ibd, ind, ipw⟩ := hInv
    dsimp only at hall hget hnid
    refine ⟨⟨?_, ?_, ?_⟩, ?_, ?_⟩
    · intro i hi
      simp only [allIds] at hi ⊢
      rw [hall] at hi
      rw [hnid]
      exact ibd i hi
    · simp only [allIds]
      rw [hall]
      exact ind
    · intro c recs hrecs
      rcases hget c recs hrecs with hnil | ⟨old, hold, hrm⟩
      · rw [hnil]
        exact List.Pairwise.nil
      · rw [hrm]
        exact ipw c old hold
    · simp only [allIds]
      exact hall
    · exact hnid

theorem resetRecordsStep_ids (t : State) (c : String) :
    (resetRecordsStep t c).nextDepositRecordId = t.nextDepositRecordId ∧
    (allIds (resetRecordsStep t c)).Sublist (allIds t) ∧
    (IdInv t → IdInv (resetRecordsStep t c)) := by
  unfold resetRecordsStep
  simp only [allIds, IdInv]
  cases hdr : getA t.depositRecords c with
  | some old =>
    simp only [hdr, Option.getD_some]
    have hsub : (List.filter (fun r => r.status ≠ "completed") old).Sublist old :=
      List.filter_sublist old
    have hall := allIdsL_setA_sublist hdr hsub
    refine ⟨trivial, hall, ?_⟩
    rintro ⟨ibd, ind, ipw⟩
    refine ⟨?_, hall.nodup ind, ?_⟩
    · intro i hi
      exact ibd i (hall.subset hi)
    · intro c' recs hrecs
      by_cases hc : c' = c
      · subst hc
        rw [getA_setA_self] at hrecs
        cases hrecs
        have hpw := ipw c' old hdr
        simp only [recIds] at hpw ⊢
        exact hpw.sublist (hsub.map (·.id))
      · rw [getA_setA_ne _ _ (fun he => hc he.symm)] at hrecs
        exact ipw c' recs hrecs
  | none =>
    simp only [hdr, Option.getD_none, List.filter_nil]
    have hall : allIdsL (setA t.depositRecords c []) =
        allIdsL t.depositRecords := by
      rw [allIdsL_setA_none hdr []]
      simp [recIds]
    refine ⟨trivial, hall ▸ List.Sublist.refl _, ?_⟩
    rintro ⟨ibd, ind, ipw⟩
    refine ⟨?_, hall ▸ ind, ?_⟩
    · intro i hi
      rw [hall] at hi
      exact ibd i hi
    · intro c' recs hrecs
      by_cases hc : c' = c
      · subst hc
        rw [getA_setA_self] at hrecs
        cases hrecs
        exact List.Pairwise.nil
      · rw [getA_setA_ne _ _ (fun he => hc he.symm)] at hrecs
        exact ipw c' recs hrecs

theorem foldResetRecords_ids (l : List String) :
    ∀ (t : State),
    (l.foldl resetRecordsStep t).nextDepositRecordId = t.nextDepositRecordId ∧
    (allIds (l.foldl resetRecordsStep t)).Sublist (allIds t) ∧
    (IdInv t → IdInv (l.foldl resetRecordsStep t)) := by
  induction l with
  | nil => exact fun t => ⟨rfl, List.Sublist.refl _, fun h => h⟩
  | cons c rest ih =>
    intro t
    simp only [List.foldl_cons]
    obtain ⟨h1, h2, h3⟩ := resetRecordsStep_ids t c
    obtain ⟨g1, g2, g3⟩ := ih (resetRecordsStep t c)
    exact ⟨g1.trans h1, g2.trans h2, fun h => g3 (h3 h)⟩

theorem IdStep_of_eq (s s' : State)
    (hd : s'.depositRecords = s.depositRecords)
    (hn : s'.nextDepositRecordId = s.nextDepositRecordId) : IdStep s s' := by
  refine ⟨Nat.le_of_eq hn.symm, ?_⟩
  intro i hi
  left
  simpa only [allIds, hd] using hi

theorem IdStep_trans (s t u : State) (h1 : IdStep s t) (h2 : IdStep t u) :
    IdStep s u := by
  obtain ⟨le1, m1⟩ := h1
  obtain ⟨le2, m2⟩ := h2
  refine ⟨Nat.le_trans le1 le2, ?_⟩
  intro i hi
  rcases m2 i hi with hmid | ⟨hgt, hle⟩
  · rcases m1 i hmid with hold | ⟨hgt, hle⟩
    · exact Or.inl hold
    · exact Or.inr ⟨hgt, Nat.le_trans hle le2⟩
  · exact Or.inr ⟨Nat.lt_of_le_of_lt le1 hgt, hle⟩

theorem IdInv_of_frame (s s' : State)
    (hd : s'.depositRecords = s.depositRecords)
    (hn : s'.nextDepositRecordId = s.nextDepositRecordId)
    (h : IdInv s) : IdInv s' := by
  obtain ⟨ibd, ind, ipw⟩ := h
  refine ⟨?_, ?_, ?_⟩
  · intro i hi
    rw [hn]
    exact ibd i (by simpa only [allIds, hd] using hi)
  · simpa only [allIds, hd] using ind
  · intro c recs hrecs
    rw [hd] at hrecs
    exact ipw c recs hrecs

theorem execute_ids (s : State) (m : Msg) (s' : State)
    (h : execute s m = .ok s') (hInv : IdInv s) : IdStep s s' ∧ IdInv s' := by
  cases m with
  | CronJob now height =>
    obtain ⟨s1, s2, hs1, hs2, hs3⟩ := cron_ok_cases s now height s' h
    have step1 : IdStep s s1 ∧ IdInv s1 := by
      rcases hs1 with h1 | h1
      · subst h1
        obtain ⟨hle, hmem, hinv⟩ := handleRewards_ids s now height
        exact ⟨⟨hle, hmem⟩, hinv hInv⟩
      · subst h1
        exact ⟨IdStep_of_eq _ _ rfl rfl, hInv⟩
    have step2 : IdStep s s2 ∧ IdInv s2 := by
      rcases hs2 with ⟨t, hg, h2⟩ | h2
      · subst h2
        obtain ⟨hinv, hall, hnid⟩ := gtls_ids s1 t hg step1.2
        have hstep : IdStep s1
            (saveClock t LAST_ARCH_LIQUID_STAKE_INTERVAL_TIME_KEY now) := by
          refine ⟨?_, ?_⟩
          · exact Nat.le_of_eq hnid.symm
          · intro i hi
            have hi2 : i ∈ allIds t := hi
            rw [hall] at hi2
            exact Or.inl hi2
        exact ⟨IdStep_trans s s1 _ step1.1 hstep,
          IdInv_of_frame t _ rfl rfl hinv⟩
      · subst h2
        exact step1
    rcases hs3 with h3 | h3
    · subst h3
      exact ⟨IdStep_trans s s2 _ step2.1 (IdStep_of_eq s2 _ rfl rfl),
        IdInv_of_frame s2 _ rfl rfl step2.2⟩
    · subst h3
      exact step2
  | SetContractMetadata sender ca ra la red minr maxr =>
    simp only [execute] at h
    split_ifs at h
    simp only [Except.ok.injEq] at h
    subst h
    exact ⟨IdStep_of_eq s _ rfl rfl, IdInv_of_frame s _ rfl rfl hInv⟩
  | AddStake sender amount =>
    simp only [execute, Except.ok.injEq] at h
    subst h
    exact ⟨IdStep_of_eq s _ rfl rfl, IdInv_of_frame s _ rfl rfl hInv⟩
  | UpdateReward sender ra amount =>
    simp only [execute] at h
    split_ifs at h
    simp only [Except.ok.injEq] at h
    subst h
    exact ⟨IdStep_of_eq s _ rfl rfl, IdInv_of_frame s _ rfl rfl hInv⟩
  | BulkUpdateRewards sender updates =>
    simp only [execute] at h
    split_ifs at h
    simp only [Except.ok.injEq] at h
    subst h
    rw [foldAddReward_frame updates s]
    exact ⟨IdStep_of_eq s _ rfl rfl, IdInv_of_frame s _ rfl rfl hInv⟩
  | ResetAllCompletedDepositRecords sender =>
    simp only [execute] at h
    split_ifs at h
    simp only [Except.ok.injEq] at h
    subst h
    unfold reset_all_completed_deposit_records
    obtain ⟨hnid, hsub, hinv⟩ := foldResetRecords_ids (mkeys s) s
    refine ⟨⟨Nat.le_of_eq hnid.symm, ?_⟩, hinv hInv⟩
    intro i hi
    exact Or.inl (hsub.subset hi)
  | ResetStakeRatios sender =>
    simp only [execute] at h
    split_ifs at h
    simp only [Except.ok.injEq] at h
    subst h
    exact ⟨IdStep_of_eq s _ rfl rfl, IdInv_of_frame s _ rfl rfl hInv⟩
  | DistributeLiquidity sender =>
    simp only [execute] at h
    split_ifs at h
    simp only [Except.ok.injEq] at h
    subst h
    unfold distribute_liquidity
    split_ifs with h0
    · exact ⟨IdStep_of_eq s s rfl rfl, hInv⟩
    · rw [foldStakeRatios_frame s _ (mkeys s) s]
      exact ⟨IdStep_of_eq s _ rfl rfl, IdInv_of_frame s _ rfl rfl hInv⟩
  | DistributeRedeemTokens sender =>
    simp only [execute] at h
    split_ifs at h
    unfold distribute_redeem_tokens_core at h
    split_ifs at h with h0
    simp only [Except.ok.injEq] at h
    subst h
    rw [foldRedeem_frame (totalRedeemTokens s) (redemptionEntries s) s]
    exact ⟨IdStep_of_eq s _ rfl rfl, IdInv_of_frame s _ rfl rfl hInv⟩
  | ResetRedemptionRatios sender =>
    simp only [execute] at h
    split_ifs at h
    simp only [Except.ok.injEq] at h
    subst h
    exact ⟨IdStep_of_eq s _ rfl rfl, IdInv_of_frame s _ rfl rfl hInv⟩
  | SetRedeemTokens sender amount ca =>
    simp only [execute] at h
    split_ifs at h
    simp only [Except.ok.injEq] at h
    subst h
    exact ⟨IdStep_of_eq s _ rfl rfl, IdInv_of_frame s _ rfl rfl hInv⟩
  | SubtractFromTotalLiquidStake sender amount =>
    simp only [execute] at h
    split_ifs at h
    unfold subtract_from_total_liquid_stake_core at h
    cases hcs : checkedSub s.totalLiquidStake amount with
    | none => rw [hcs] at h; exact absurd h (by simp)
    | some v =>
      rw [hcs] at h
      simp only [Except.ok.injEq] at h
      subst h
      exact ⟨IdStep_of_eq s _ rfl rfl, IdInv_of_frame s _ rfl rfl hInv⟩
  | EmitLiquidStakeEvent sender =>
    simp only [execute] at h
    split_ifs at h
    simp only [Except.ok.injEq] at h
    subst h
    exact ⟨IdStep_of_eq s _ rfl rfl, IdInv_of_frame s _ rfl rfl hInv⟩
  | EmitDistributeLiquidityEvent sender =>
    simp only [execute] at h
    split_ifs at h
    simp only [Except.ok.injEq] at h
    subst h
    exact ⟨IdStep_of_eq s _ rfl rfl, IdInv_of_frame s _ rfl rfl hInv⟩

/-- Claim C7: deposit-record ids come from the single global counter
`NEXT_DEPOSIT_RECORD_ID` and are monotonic. In every reachable state no id
occurs twice anywhere in `DEPOSIT_RECORDS` (ids are never reused), every
stored id is bounded by the counter, each account's record list carries
strictly increasing ids in order of creation, and any id newly created by
a further successful call is strictly greater than every id that existed
before the call. -/
theorem c7_monotonic_ids (s : State) (h : Reachable s) :
    (allIds s).Nodup ∧
    (∀ i ∈ allIds s, i ≤ s.nextDepositRecordId) ∧
    (∀ c recs, getA s.depositRecords c = some recs →
      (recIds recs).Pairwise (· < ·)) ∧
    (∀ m s', execute s m = .ok s' →
      ∀ i ∈ allIds s', i ∉ allIds s → ∀ j ∈ allIds s, j < i) := by
  have hInv : IdInv s := by
    induction h with
    | init msg sender now =>
      refine ⟨?_, ?_, ?_⟩
      · intro i hi
        simp [allIds, instantiate, allIdsL] at hi
      · simp [allIds, instantiate, allIdsL]
      · intro c recs hrecs
        simp [instantiate, getA] at hrecs
    | step hr hm hexec ih =>
      exact (execute_ids _ _ _ hexec ih).2
  obtain ⟨ibd, ind, ipw⟩ := hInv
  refine ⟨ind, ibd, ipw, ?_⟩
  intro m s' hexec i hi hnot j hj
  obtain ⟨⟨hle, hmem⟩, _⟩ := execute_ids s m s' hexec ⟨ibd, ind, ipw⟩
  rcases hmem i hi with hin | ⟨hgt, _⟩
  · exact absurd hin hnot
  · exact Nat.lt_of_le_of_lt (ibd j hj) hgt

/-- Witness for C7 along the concrete trace ending in a cron tick that
created record id 2 for account c1. -/
theorem c7_monotonic_ids_witness :
    Reachable exMatCron ∧
    (allIds exMatCron).Nodup ∧
    ∀ i ∈ allIds exMatCron, i ≤ exMatCron.nextDepositRecordId := by
  have r0 : Reachable exInit := .init ⟨0, 0, 0, 0, 0⟩ "admin" 0
  have r1 : Reachable exMeta := .step r0 trivial
    (show execute exInit
      (.SetContractMetadata "admin" "c1" "r1" "l1" "rd1" 50 1000) =
      .ok exMeta by rfl)
  have r2 : Reachable exRwd := .step r1 trivial
    (show execute exMeta (.UpdateReward "admin" "c1" 100) = .ok exRwd by rfl)
  have r3 : Reachable exMatCron := .step r2 trivial
    (show execute exRwd (.CronJob 1 1) = .ok exMatCron by rfl)
  obtain ⟨hnd, hbd, hrest⟩ := c7_monotonic_ids exMatCron r3
  exact ⟨r3, hnd, hbd⟩
